import Mathlib

/-!
Verification of the master-schedule normalization pipeline: a shallow
embedding of the Cell Parser, Column Mapper, Schedule Normalizer, Validator
and CSV Serializer, followed by theorems settling the specification claims.

Strings are modelled by Lean `String` (a packed `List Char`); the JavaScript
string primitives used by the source (`trim`, `toLowerCase`, `split`,
`includes`, regular-expression scans) are embedded as executable functions
over the underlying character lists.
-/

set_option maxRecDepth 10000

/-- Embedding of JavaScript `String.prototype.trim` on character lists:
drop whitespace from the front, then from the back. -/
def trimL (cs : List Char) : List Char :=
  ((cs.dropWhile Char.isWhitespace).reverse.dropWhile Char.isWhitespace).reverse

/-- Embedding of JavaScript `String.prototype.trim`. -/
def jsTrim (s : String) : String :=
  String.mk (trimL s.data)

/-- Embedding of JavaScript `String.prototype.toLowerCase` (ASCII range). -/
def jsToLower (s : String) : String :=
  String.mk (s.data.map Char.toLower)

/-- Substring containment on character lists, the embedding of
JavaScript `String.prototype.includes`. -/
def containsSub (needle : List Char) : List Char → Bool
  | [] => needle.isEmpty
  | c :: rest => needle.isPrefixOf (c :: rest) || containsSub needle rest

/-- Embedding of JavaScript `haystack.includes(needle)`. -/
def containsStr (needle s : String) : Bool :=
  containsSub needle.data s.data

/-- Embedding of JavaScript `String.prototype.split` with a one-character
separator. -/
def splitOnChar (sep : Char) : List Char → List (List Char)
  | [] => [[]]
  | c :: rest =>
    match splitOnChar sep rest with
    | [] => [[]]
    | grp :: grps =>
      if c == sep then [] :: grp :: grps else (c :: grp) :: grps

/-- Order-preserving removal of duplicates keeping first occurrences; the
embedding of iterating a JavaScript `Set` built by insertion. -/
def dedupFirst (seen : List String) : List String → List String
  | [] => []
  | x :: xs =>
    if seen.contains x then dedupFirst seen xs
    else x :: dedupFirst (x :: seen) xs

/-- Embedding of JavaScript `array.join(sep)` at the character-list level. -/
def joinWithChar (sep : Char) : List (List Char) → List Char
  | [] => []
  | [x] => x
  | x :: y :: rest => x ++ sep :: joinWithChar sep (y :: rest)

/-- Embedding of `teacher.data.join('|')`. -/
def joinBar (l : List String) : String :=
  String.mk (joinWithChar '|' (l.map String.data))

/-! ## Cell Parser (`parsePeriodCell` in the source) -/

/-- One parsed course assignment, the object `{ course, room, type }` built
by `parsePeriodCell`. -/
structure ClassObj where
  course : String
  room : String
  type : String
deriving DecidableEq

/-- The result of parsing one cell: `{ aDayClasses, bDayClasses }`. -/
structure DayAssignments where
  aDayClasses : List ClassObj
  bDayClasses : List ClassObj
deriving DecidableEq

/-- The characters of the literal `"Room:"`. -/
def roomKey : List Char := "Room:".data

/-- The characters of the literal `"Days:"`. -/
def daysKey : List Char := "Days:".data

/-- The alternatives of the regular expression `(FY|S1|S2|Q1|Q2|Q3|Q4)`,
in alternation order. -/
def typeTokens : List (List Char) :=
  ["FY".data, "S1".data, "S2".data, "Q1".data, "Q2".data, "Q3".data, "Q4".data]

/-- Embedding of `detailsLine.match(/Room:(\S+)/)`: scan left to right for
an occurrence of `Room:` followed by at least one non-whitespace character,
returning the maximal non-whitespace run after it. -/
def matchRoom : List Char → Option (List Char)
  | [] => none
  | c :: rest =>
    if roomKey.isPrefixOf (c :: rest) then
      if ((((c :: rest).drop 5).takeWhile (fun x => !x.isWhitespace))).isEmpty then
        matchRoom rest
      else some (((c :: rest).drop 5).takeWhile (fun x => !x.isWhitespace))
    else matchRoom rest

/-- Embedding of `detailsLine.match(/(FY|S1|S2|Q1|Q2|Q3|Q4)/)`: the first
position bearing one of the alternatives, tried in alternation order. -/
def matchType : List Char → Option (List Char)
  | [] => none
  | c :: rest =>
    match typeTokens.find? (fun t => t.isPrefixOf (c :: rest)) with
    | some t => some t
    | none => matchType rest

/-- Embedding of `detailsLine.match(/Days:\s*([AB])/)`: scan for `Days:`,
skip whitespace greedily, and require the next character to be `A` or `B`. -/
def matchDays : List Char → Option Char
  | [] => none
  | c :: rest =>
    if daysKey.isPrefixOf (c :: rest) then
      match ((c :: rest).drop 5).dropWhile Char.isWhitespace with
      | d :: _ =>
        if d == 'A' || d == 'B' then some d else matchDays rest
      | [] => matchDays rest
    else matchDays rest

/-- The room string extracted from a details line (`''` when the pattern
does not match). -/
def roomOf (details : String) : String :=
  match matchRoom details.data with
  | some tok => String.mk tok
  | none => ""

/-- The term-type string extracted from a details line (`'FY'` when absent). -/
def typeOf (details : String) : String :=
  match matchType details.data with
  | some t => String.mk t
  | none => "FY"

/-- Whether the next line is a details line: it contains `Room:` or `Days:`. -/
def detailsLineHas (l : String) : Bool :=
  containsStr "Room:" l || containsStr "Days:" l

/-- The line-consuming loop of `parsePeriodCell`, returning the pair
`(aDayClasses, bDayClasses)`. -/
def parsePeriodCellLines : List String → List ClassObj × List ClassObj
  | [] => ([], [])
  | [l] =>
    let course := jsTrim l
    if course = "" then ([], [])
    else ([⟨course, "", "FY"⟩], [⟨course, "", "FY"⟩])
  | l :: l2 :: rest =>
    if detailsLineHas l2 then
      let obj : ClassObj := ⟨jsTrim l, roomOf l2, typeOf l2⟩
      let tail := parsePeriodCellLines rest
      if matchDays l2.data = some 'A' then (obj :: tail.1, tail.2)
      else if matchDays l2.data = some 'B' then (tail.1, obj :: tail.2)
      else (obj :: tail.1, obj :: tail.2)
    else
      let course := jsTrim l
      let tail := parsePeriodCellLines (l2 :: rest)
      if course = "" then tail
      else (⟨course, "", "FY"⟩ :: tail.1, ⟨course, "", "FY"⟩ :: tail.2)

/-- Embedding of `parsePeriodCell`. -/
def parsePeriodCell (cellValue : String) : DayAssignments :=
  if jsTrim cellValue = "" then ⟨[], []⟩
  else
    let lines := (splitOnChar '\n' cellValue.data).map String.mk
    let r := parsePeriodCellLines lines
    ⟨r.1, r.2⟩

/-- Embedding of `formatClassForCsv`: the first assignment formatted as
`course (Room: room)` when a room is present, else the bare course; the
empty string on an empty list. -/
def formatClassForCsv (classes : List ClassObj) : String :=
  match classes with
  | [] => ""
  | c :: _ =>
    if c.room ≠ "" then c.course ++ " (Room: " ++ c.room ++ ")"
    else c.course

/-! ## Column Mapper (`findColumn` / `findColumnName` in the source) -/

/-- The normalization applied to both sides of a header match:
`s.toLowerCase().trim()`. -/
def jsNorm (s : String) : String :=
  jsTrim (jsToLower s)

/-- Lookup in the JavaScript object `lowerMap` built by
`headers.forEach(h => lowerMap[h.toLowerCase().trim()] = h)`: the last
header whose normalization equals the key. -/
def lowerMapFind (headers : List String) (k : String) : Option String :=
  (headers.filter (fun h => jsNorm h == k)).getLast?

/-- Embedding of `findColumn`: candidates in priority order, a truthy map
entry wins; the empty-string header is falsy and is skipped. -/
def findColumn (headers : List String) : List String → Option String
  | [] => none
  | n :: rest =>
    match lowerMapFind headers (jsNorm n) with
    | some h => if h == "" then findColumn headers rest else some h
    | none => findColumn headers rest

/-- Embedding of `findColumnName` (textually identical to `findColumn` in
the source). -/
def findColumnName (headers : List String) : List String → Option String
  | [] => none
  | n :: rest =>
    match lowerMapFind headers (jsNorm n) with
    | some h => if h == "" then findColumnName headers rest else some h
    | none => findColumnName headers rest

/-! ## Levenshtein distance (`levenshteinDistance` in the source) -/

/-- One inner iteration of the source's dynamic-programming loop: given the
remaining characters of `b`, the diagonal value `dp[i-1][j-1]`, the value to
the left `dp[i][j-1]`, and the rest of the previous row from `dp[i-1][j]` on,
produce the rest of the current row. -/
def levRowAux (a : Char) : List Char → Nat → Nat → List Nat → List Nat
  | [], _, _, _ => []
  | _, _, _, [] => []
  | bj :: bs, diag, left, pj :: prest =>
    let cost : Nat := if a == bj then 0 else 1
    let cur := Nat.min (pj + 1) (Nat.min (left + 1) (diag + cost))
    cur :: levRowAux a bs pj cur prest

/-- The outer row loop of the source's dynamic program: fold the characters
of `a` over the previous row, each row starting with `dp[i][0] = i`. -/
def levRows (b : List Char) : List Char → Nat → List Nat → List Nat
  | [], _, row => row
  | a :: as, i, row =>
    match row with
    | [] => []
    | p0 :: prest => levRows b as (i + 1) ((i + 1) :: levRowAux a b p0 (i + 1) prest)

/-- The value `dp[aLen][bLen]` of the source's table: the unit-cost edit
distance between the two character lists. -/
def levL (a b : List Char) : Nat :=
  (levRows b a 0 (List.range (b.length + 1))).getLastD 0

/-- Embedding of `levenshteinDistance`. -/
def levenshteinDistance (a b : String) : Nat :=
  levL a.data b.data

/-! ## CSV Serializer (`escapeCsv`) and the CSV line parser -/

/-- Embedding of `str.replace(/"/g, '""')`: double every quote character. -/
def doubleQuotes : List Char → List Char
  | [] => []
  | c :: rest =>
    if c == '"' then '"' :: '"' :: doubleQuotes rest
    else c :: doubleQuotes rest

/-- Embedding of `escapeCsv`: quote (doubling inner quotes) exactly when the
field contains a comma, a double quote, or a newline. -/
def escapeCsv (str : String) : String :=
  if str.data.contains ',' || str.data.contains '"' || str.data.contains '\n' then
    String.mk ('"' :: doubleQuotes str.data ++ ['"'])
  else str

/-- The character loop of `parseCSVLine`, carrying the `inQuotes` flag and
the current field. The one-character case unrolls the loop's final
iteration (no lookahead is possible there), the two-character case performs
the doubled-quote lookahead of the source. -/
def parseCSVLineAux (inQuotes : Bool) (current : List Char) :
    List Char → List (List Char)
  | [] => [current]
  | [c] =>
    if inQuotes then
      if c == '"' then [current]
      else [current ++ [c]]
    else
      if c == '"' then [current]
      else if c == ',' then [current, []]
      else [current ++ [c]]
  | c :: c2 :: rest =>
    if inQuotes then
      if c == '"' then
        if c2 == '"' then parseCSVLineAux true (current ++ ['"']) rest
        else parseCSVLineAux false current (c2 :: rest)
      else parseCSVLineAux true (current ++ [c]) (c2 :: rest)
    else
      if c == '"' then parseCSVLineAux true current (c2 :: rest)
      else if c == ',' then current :: parseCSVLineAux false [] (c2 :: rest)
      else parseCSVLineAux false (current ++ [c]) (c2 :: rest)

/-- Embedding of `parseCSVLine`. -/
def parseCSVLine (line : String) : List String :=
  (parseCSVLineAux false [] line.data).map String.mk

/-! ## Schedule Normalizer (`parseExcelSchedule` in the source) -/

/-- One teacher output record `{ teacher, dept, data }`. -/
structure TeacherRec where
  teacher : String
  dept : String
  data : List String
deriving DecidableEq

/-- The result record of `parseExcelSchedule`. -/
structure ParseResult where
  headers : List String
  teachers : List TeacherRec
  periodCols : List String
deriving DecidableEq

/-- One issue `{ severity, message }` produced by the Validator. -/
structure Issue where
  severity : String
  message : String
deriving DecidableEq

/-- Embedding of `nonTeachingLabelsStr.split(',').map(s => s.trim().toLowerCase())`. -/
def parseLabelsList (s : String) : List String :=
  (splitOnChar ',' s.data).map (fun cs => jsToLower (jsTrim (String.mk cs)))

/-- Embedding of the JavaScript object access `row[col] || ''` on a row
record with string fields. -/
def rowLookup (row : List (String × String)) (k : String) : String :=
  match row.find? (fun p => p.1 == k) with
  | some p => p.2
  | none => ""

/-- The teacher-name candidate list of the source. -/
def teacherCandidates : List String :=
  ["Teacher Name", "Teacher", "Name", "Staff", "Staff Name", "Instructor"]

/-- The department candidate list of the source. -/
def deptCandidates : List String :=
  ["Department", "Dept", "Subject", "Subject Area"]

/-- Resolution of a mapped column on a row:
`colName ? String(row[colName] || '').trim() : ''`. -/
def resolveField (col : Option String) (row : List (String × String)) : String :=
  match col with
  | some c => jsTrim (rowLookup row c)
  | none => ""

/-- `'Prep'` when the formatted string is falsy: the JavaScript
`formatClassForCsv(...) || 'Prep'`. -/
def orPrep (s : String) : String :=
  if s = "" then "Prep" else s

/-- The two cells (A day then B day) emitted for one period column of one
row by `parseExcelSchedule`. -/
def cellPair (labels : List String) (row : List (String × String))
    (pc : String) : List String :=
  let cellValue := jsTrim (rowLookup row pc)
  if labels.contains (jsToLower cellValue) then ["Prep", "Prep"]
  else
    let r := parsePeriodCell cellValue
    [orPrep (formatClassForCsv r.aDayClasses),
     orPrep (formatClassForCsv r.bDayClasses)]

/-- The body of the row loop of `parseExcelSchedule`: `none` models the
`continue` on an empty resolved teacher name. -/
def rowToTeacher (labels : List String) (tCol dCol : Option String)
    (periodCols : List String) (row : List (String × String)) :
    Option TeacherRec :=
  if resolveField tCol row = "" then none
  else
    some ⟨resolveField tCol row, resolveField dCol row,
      [resolveField dCol row, resolveField tCol row] ++
        periodCols.flatMap (cellPair labels row)⟩

/-- Embedding of `parseExcelSchedule` on the materialized row records
(`XLSX.utils.sheet_to_json` belongs to the excluded loading layer). -/
def parseExcelSchedule (data : List (List (String × String)))
    (nonTeachingLabelsStr : String) : ParseResult :=
  match data with
  | [] => ⟨["Department", "Teacher"], [], []⟩
  | r0 :: rest =>
    let labels := parseLabelsList nonTeachingLabelsStr
    let headers := r0.map (fun p => p.1)
    let tCol := findColumnName headers teacherCandidates
    let dCol := findColumnName headers deptCandidates
    let periodCols := headers.filter (fun h => containsStr "period" (jsToLower h))
    let teachers := (r0 :: rest).filterMap (rowToTeacher labels tCol dCol periodCols)
    ⟨["Department", "Teacher"] ++
        periodCols.flatMap (fun pc => [pc ++ " A Day", pc ++ " B Day"]),
      teachers, periodCols⟩

/-! ## Validator (`validateSchedule` in the source) -/

/-- The error pushed for an empty teacher name. -/
def missingIssue : Issue :=
  ⟨"error", "Missing teacher name in one row"⟩

/-- The duplicate-teacher warning for a name. -/
def dupIssue (name : String) : Issue :=
  ⟨"warning", "Duplicate teacher: " ++ name⟩

/-- The all-prep warning for a name. -/
def allPrepIssue (name : String) : Issue :=
  ⟨"warning", "All-prep schedule: " ++ name⟩

/-- The typo warning for a course and the label it resembles. -/
def typoIssue (course label : String) : Issue :=
  ⟨"warning",
    "Possible typo: \"" ++ course ++ "\" (similar to \"" ++ label ++ "\")"⟩

/-- The all-prep test of the validator loop:
`!dataStr.includes('(room:') && teacher.data.slice(2).every(c => c === 'Prep' || c === '')`
with `dataStr = teacher.data.join('|').toLowerCase()`. -/
def allPrepFlag (t : TeacherRec) : Bool :=
  !(containsStr "(room:" (jsToLower (joinBar t.data))) &&
    (t.data.drop 2).all (fun c => c == "Prep" || c == "")

/-- The issues pushed for one teacher by the validator loop, given the set
of lower-cased names already seen. -/
def perTeacherIssues (seen : List String) (t : TeacherRec) : List Issue :=
  (if jsTrim t.teacher = "" then [missingIssue] else []) ++
  (if seen.contains (jsToLower t.teacher) then [dupIssue t.teacher] else []) ++
  (if allPrepFlag t then [allPrepIssue t.teacher] else [])

/-- The course references collected from one teacher for typo detection:
cells from index 2 on that are truthy, free of `(Room:` and not `Prep`. -/
def teacherCourses (t : TeacherRec) : List String :=
  (t.data.drop 2).filter
    (fun cell => !(cell == "") && !(containsStr "(Room:" cell) && !(cell == "Prep"))

/-- The validator's teacher loop: issues in emission order plus the
collected course references. -/
def validateLoop (seen : List String) :
    List TeacherRec → List Issue × List String
  | [] => ([], [])
  | t :: ts =>
    let rest := validateLoop (jsToLower t.teacher :: seen) ts
    (perTeacherIssues seen t ++ rest.1, teacherCourses t ++ rest.2)

/-- `Array.from(nonTeachingSet)`: the configured labels, normalized, in
first-insertion order. -/
def knownLabels (nonTeachingLabelsStr : String) : List String :=
  dedupFirst [] (parseLabelsList nonTeachingLabelsStr)

/-- The inner label scan of the typo pass: the first label whose distance to
the lower-cased course is in (0, 2], with the `(room:` suppression of the
source condition. -/
def findTypoLabel (labels : List String) (course : String) : Option String :=
  let courseLower := jsToLower course
  labels.find? (fun label =>
    let dist := levenshteinDistance courseLower label
    decide (0 < dist) && decide (dist ≤ 2) &&
      !(containsStr "(room:" courseLower))

/-- The (course, label) pairs the typo pass warns about, in order: unique
course strings, each matched to its first label within distance. -/
def typoPairs (teachers : List TeacherRec) (nonTeachingLabelsStr : String) :
    List (String × String) :=
  (dedupFirst [] (validateLoop [] teachers).2).filterMap
    (fun course =>
      (findTypoLabel (knownLabels nonTeachingLabelsStr) course).map
        (fun label => (course, label)))

/-- Embedding of `validateSchedule`: the loop issues followed by the typo
warnings. -/
def validateSchedule (teachers : List TeacherRec)
    (nonTeachingLabelsStr : String) : List Issue :=
  (validateLoop [] teachers).1 ++
    (typoPairs teachers nonTeachingLabelsStr).map
      (fun p => typoIssue p.1 p.2)

/-- Embedding of `generateCsv`. -/
def generateCsv (headers : List String) (teachers : List TeacherRec) : String :=
  String.intercalate "\n"
    ((String.intercalate "," (headers.map escapeCsv)) ::
      teachers.map (fun t => String.intercalate "," (t.data.map escapeCsv)))

/-! ## Spec-side definitions used to state refinement claims -/

/-- The records of a cell in source-line order, each paired with its
day-flag, following the spec's description of the line loop: a course line
with a following details line forms one record; a non-blank standalone line
forms an unflagged record. -/
def cellRecords : List String → List (ClassObj × Option Char)
  | [] => []
  | [l] =>
    if jsTrim l = "" then []
    else [(⟨jsTrim l, "", "FY"⟩, none)]
  | l :: l2 :: rest =>
    if detailsLineHas l2 then
      (⟨jsTrim l, roomOf l2, typeOf l2⟩, matchDays l2.data) :: cellRecords rest
    else
      if jsTrim l = "" then cellRecords (l2 :: rest)
      else (⟨jsTrim l, "", "FY"⟩, none) :: cellRecords (l2 :: rest)

/-- The A-day track stated by the spec: records in source order, omitting
those flagged `B`. -/
def trackA (records : List (ClassObj × Option Char)) : List ClassObj :=
  records.filterMap (fun p => if p.2 = some 'B' then none else some p.1)

/-- The B-day track stated by the spec: records in source order, omitting
those flagged `A`. -/
def trackB (records : List (ClassObj × Option Char)) : List ClassObj :=
  records.filterMap (fun p => if p.2 = some 'A' then none else some p.1)

/-- The per-day cell formatting exactly as the claim words it: take only
the first assignment, render `course (Room: room)` when the room is
non-empty, else the bare course, and `Prep` only when the day list is
empty. -/
def claimFormatDay (classes : List ClassObj) : String :=
  match classes with
  | [] => "Prep"
  | c :: _ =>
    if c.room ≠ "" then c.course ++ " (Room: " ++ c.room ++ ")"
    else c.course

/-- The per-day cell formatting as the source behaves: additionally fall
back to `Prep` whenever the formatted first assignment is the empty
string. -/
def specFormatDay (classes : List ClassObj) : String :=
  orPrep (claimFormatDay classes)

/-- The two cells for one period, stated from the spec's words over the
already-trimmed cell text: a label match short-circuits to `Prep`/`Prep`,
otherwise each day of the parsed cell is formatted separately. -/
def specCellPair (labels : List String) (cellText : String) : List String :=
  if labels.contains (jsToLower cellText) then ["Prep", "Prep"]
  else [specFormatDay (parsePeriodCell cellText).aDayClasses,
        specFormatDay (parsePeriodCell cellText).bDayClasses]

/-- The lower-cased names accumulated by the validator loop after a list of
teachers has been processed. -/
def seenList (ts : List TeacherRec) : List String :=
  (ts.map (fun t => jsToLower t.teacher)).reverse

/-! ## Basic lemmas about the string embedding -/

theorem String.mk_data (s : String) : String.mk s.data = s := by
  cases s
  rfl

theorem String.mk_inj {a b : List Char} (h : String.mk a = String.mk b) : a = b := by
  injection h

theorem containsSub_iff (n h : List Char) :
    containsSub n h = true ↔ ∃ pre post, h = pre ++ n ++ post := by
  induction h with
  | nil =>
    simp only [containsSub, List.isEmpty_iff]
    constructor
    · rintro rfl
      exact ⟨[], [], rfl⟩
    · rintro ⟨pre, post, hpre⟩
      rcases List.append_eq_nil.mp (List.append_eq_nil.mp hpre.symm).1 with ⟨-, h2⟩
      exact h2
  | cons c rest ih =>
    simp only [containsSub, Bool.or_eq_true, ih]
    constructor
    · rintro (hp | ⟨pre, post, rfl⟩)
      · rcases (List.isPrefixOf_iff_prefix.mp hp : n <+: c :: rest) with ⟨t, ht⟩
        exact ⟨[], t, ht.symm⟩
      · exact ⟨c :: pre, post, rfl⟩
    · rintro ⟨pre, post, hpre⟩
      cases pre with
      | nil =>
        left
        exact List.isPrefixOf_iff_prefix.mpr ⟨post, by simpa using hpre.symm⟩
      | cons p ps =>
        right
        refine ⟨ps, post, ?_⟩
        simpa using congrArg List.tail hpre

theorem isPrefixOf_append_sep {sep : Char} :
    ∀ {n u b : List Char}, sep ∉ n →
      (n.isPrefixOf (u ++ sep :: b) = true ↔ n.isPrefixOf u = true)
  | [], u, b, _ => by simp [List.isPrefixOf]
  | x :: xs, [], b, hsep => by
    have hx : (x == sep) = false := by
      simp only [beq_eq_false_iff_ne, ne_eq]
      intro hc
      exact hsep (hc ▸ List.mem_cons_self _ _)
    simp [List.isPrefixOf, hx]
  | x :: xs, c :: u, b, hsep => by
    have hxs : sep ∉ xs := fun hc => hsep (List.mem_cons_of_mem _ hc)
    show (x == c && xs.isPrefixOf (u ++ sep :: b)) = true ↔
      (x == c && xs.isPrefixOf u) = true
    simp only [Bool.and_eq_true, isPrefixOf_append_sep hxs]

theorem containsSub_append_sep {n : List Char} {sep : Char} (hsep : sep ∉ n) :
    ∀ (a b : List Char),
      (containsSub n (a ++ sep :: b) = true ↔
        containsSub n a = true ∨ containsSub n b = true)
  | [], b => by
    cases n with
    | nil => simp [containsSub]
    | cons x xs =>
      have hx : (x == sep) = false := by
        simp only [beq_eq_false_iff_ne, ne_eq]
        intro hc
        exact hsep (hc ▸ List.mem_cons_self _ _)
      simp [containsSub, List.isPrefixOf, hx]
  | c :: a, b => by
    have e1 : containsSub n ((c :: a) ++ sep :: b) =
        (n.isPrefixOf ((c :: a) ++ sep :: b) || containsSub n (a ++ sep :: b)) := rfl
    have e2 : containsSub n (c :: a) =
        (n.isPrefixOf (c :: a) || containsSub n a) := rfl
    rw [e1, e2]
    simp only [Bool.or_eq_true, containsSub_append_sep hsep a b,
      isPrefixOf_append_sep (u := c :: a) (b := b) hsep]
    tauto

theorem containsSub_joinWith {n : List Char} {sep : Char} (hsep : sep ∉ n) :
    ∀ parts : List (List Char), parts ≠ [] →
      (containsSub n (joinWithChar sep parts) = true ↔
        ∃ p ∈ parts, containsSub n p = true)
  | [], hne => absurd rfl hne
  | [x], _ => by simp [joinWithChar]
  | x :: y :: rest, _ => by
    rw [joinWithChar, containsSub_append_sep hsep,
      containsSub_joinWith hsep (y :: rest) (by simp)]
    simp

theorem dropWhile_head_false {p : Char → Bool} :
    ∀ {l : List Char} {c : Char} {cs : List Char},
      l.dropWhile p = c :: cs → p c = false
  | [], c, cs, h => by simp [List.dropWhile] at h
  | x :: xs, c, cs, h => by
    by_cases hp : p x = true
    · rw [List.dropWhile_cons, if_pos hp] at h
      exact dropWhile_head_false h
    · rw [List.dropWhile_cons, if_neg hp] at h
      have hxc : x = c := by injection h
      subst hxc
      simpa using hp

theorem dropWhile_idem (p : Char → Bool) (l : List Char) :
    (l.dropWhile p).dropWhile p = l.dropWhile p := by
  cases hd : l.dropWhile p with
  | nil => rfl
  | cons c cs =>
    have := dropWhile_head_false hd
    simp [List.dropWhile_cons, this]

theorem dropWhile_eq_self_head {c : Char} {rest : List Char}
    (h : (c :: rest).dropWhile Char.isWhitespace = c :: rest) :
    Char.isWhitespace c = false := by
  by_cases hc : Char.isWhitespace c = true
  · rw [List.dropWhile_cons, if_pos hc] at h
    have hlen := congrArg List.length h
    have hle : (rest.dropWhile Char.isWhitespace).length ≤ rest.length :=
      (List.dropWhile_suffix Char.isWhitespace).sublist.length_le
    simp only [List.length_cons] at hlen
    omega
  · simpa using hc

theorem trimL_front_trimmed (cs : List Char) :
    (trimL cs).dropWhile Char.isWhitespace = trimL cs := by
  have key : ∀ u : List Char, u.dropWhile Char.isWhitespace = u →
      ((u.reverse.dropWhile Char.isWhitespace).reverse).dropWhile Char.isWhitespace =
        (u.reverse.dropWhile Char.isWhitespace).reverse := by
    intro u hu
    cases hrev : (u.reverse.dropWhile Char.isWhitespace).reverse with
    | nil => rfl
    | cons c cs2 =>
      have hsplit : u = c :: (cs2 ++ (u.reverse.takeWhile Char.isWhitespace).reverse) := by
        have h1 : u.reverse.takeWhile Char.isWhitespace ++
            u.reverse.dropWhile Char.isWhitespace = u.reverse :=
          List.takeWhile_append_dropWhile ..
        have h2 : u = (u.reverse.dropWhile Char.isWhitespace).reverse ++
            (u.reverse.takeWhile Char.isWhitespace).reverse := by
          calc u = u.reverse.reverse := (List.reverse_reverse u).symm
          _ = (u.reverse.takeWhile Char.isWhitespace ++
              u.reverse.dropWhile Char.isWhitespace).reverse := by rw [h1]
          _ = _ := List.reverse_append ..
        conv_lhs => rw [h2, hrev]
        rfl
      have hchar : Char.isWhitespace c = false := by
        rw [hsplit] at hu
        exact dropWhile_eq_self_head hu
      rw [List.dropWhile_cons, if_neg (by simp [hchar])]
  have := key (cs.dropWhile Char.isWhitespace) (dropWhile_idem ..)
  unfold trimL
  exact this

theorem trimL_idem (cs : List Char) : trimL (trimL cs) = trimL cs := by
  have h1 := trimL_front_trimmed cs
  show (((trimL cs).dropWhile Char.isWhitespace).reverse.dropWhile
      Char.isWhitespace).reverse = trimL cs
  rw [h1]
  conv_lhs => rw [show trimL cs =
    ((cs.dropWhile Char.isWhitespace).reverse.dropWhile Char.isWhitespace).reverse from rfl]
  rw [List.reverse_reverse, dropWhile_idem]
  rfl

theorem jsTrim_idem (s : String) : jsTrim (jsTrim s) = jsTrim s := by
  simp [jsTrim, trimL_idem]

theorem mem_dedupFirst {x : String} :
    ∀ (seen l : List String), x ∈ dedupFirst seen l ↔ x ∈ l ∧ x ∉ seen
  | seen, [] => by simp [dedupFirst]
  | seen, y :: ys => by
    rw [dedupFirst]
    by_cases hy : seen.contains y
    · rw [if_pos hy, mem_dedupFirst seen ys]
      have hymem : y ∈ seen := List.elem_iff.mp hy
      constructor
      · rintro ⟨h1, h2⟩
        exact ⟨List.mem_cons_of_mem _ h1, h2⟩
      · rintro ⟨h1, h2⟩
        rcases List.mem_cons.mp h1 with rfl | h1
        · exact absurd hymem h2
        · exact ⟨h1, h2⟩
    · rw [if_neg hy]
      constructor
      · intro hx
        rcases List.mem_cons.mp hx with rfl | hx2
        · exact ⟨List.mem_cons_self _ _, fun hc => hy (List.elem_iff.mpr hc)⟩
        · obtain ⟨h1, h2⟩ := (mem_dedupFirst (y :: seen) ys).mp hx2
          exact ⟨List.mem_cons_of_mem _ h1, fun hc => h2 (List.mem_cons_of_mem _ hc)⟩
      · rintro ⟨hmem, hns⟩
        rcases List.mem_cons.mp hmem with rfl | h1
        · exact List.mem_cons_self _ _
        · by_cases hxy : x = y
          · subst hxy
            exact List.mem_cons_self _ _
          · refine List.mem_cons_of_mem _
              ((mem_dedupFirst (y :: seen) ys).mpr ⟨h1, fun hc => ?_⟩)
            rcases List.mem_cons.mp hc with h | h
            · exact hxy h
            · exact hns h

theorem nodup_dedupFirst : ∀ (seen l : List String), (dedupFirst seen l).Nodup
  | seen, [] => List.nodup_nil
  | seen, y :: ys => by
    rw [dedupFirst]
    by_cases hy : seen.contains y
    · rw [if_pos hy]
      exact nodup_dedupFirst seen ys
    · rw [if_neg hy]
      refine List.Nodup.cons ?_ (nodup_dedupFirst (y :: seen) ys)
      intro hc
      exact ((mem_dedupFirst _ _).mp hc).2 (List.mem_cons_self _ _)

/-! ## Lemmas about the details-line scanners -/

theorem isPrefixOf_exists {l cs : List Char} (h : l.isPrefixOf cs = true) :
    ∃ t, cs = l ++ t := by
  rcases List.isPrefixOf_iff_prefix.mp h with ⟨t, ht⟩
  exact ⟨t, ht.symm⟩

theorem isPrefixOf_of_append (l t : List Char) : l.isPrefixOf (l ++ t) = true :=
  List.isPrefixOf_iff_prefix.mpr (List.prefix_append l t)

theorem matchRoom_sound :
    ∀ {cs tok : List Char}, matchRoom cs = some tok →
      ∃ pre post, cs = pre ++ roomKey ++ tok ++ post ∧ tok ≠ [] ∧
        (∀ c ∈ tok, c.isWhitespace = false) ∧
        (∀ c cs2, post = c :: cs2 → c.isWhitespace = true)
  | [], tok, h => by simp [matchRoom] at h
  | c :: rest, tok, h => by
    rw [matchRoom] at h
    by_cases hp : roomKey.isPrefixOf (c :: rest) = true
    · rw [if_pos hp] at h
      obtain ⟨t, ht⟩ := isPrefixOf_exists hp
      have hdrop : (c :: rest).drop 5 = t := by
        rw [ht, show (5 : Nat) = roomKey.length from by decide]
        exact List.drop_left ..
      by_cases he : (((c :: rest).drop 5).takeWhile (fun x => !x.isWhitespace)).isEmpty = true
      · rw [if_pos he] at h
        obtain ⟨pre, post, hsp, hne, hall, hpost⟩ := matchRoom_sound h
        exact ⟨c :: pre, post, by rw [hsp]; rfl, hne, hall, hpost⟩
      · rw [if_neg he] at h
        have htok : tok = t.takeWhile (fun x => !x.isWhitespace) := by
          rw [← hdrop]
          exact (Option.some.injEq .. ▸ h).symm
        refine ⟨[], t.dropWhile (fun x => !x.isWhitespace), ?_, ?_, ?_, ?_⟩
        · rw [ht, htok]
          simp [List.takeWhile_append_dropWhile]
        · intro hc
          rw [htok, ← hdrop] at hc
          exact he (by rw [hc]; rfl)
        · intro x hx
          rw [htok] at hx
          have := List.mem_takeWhile_imp hx
          simpa using this
        · intro x cs2 hx
          have := dropWhile_head_false (p := fun x => !x.isWhitespace) hx
          simpa using this
    · rw [if_neg hp] at h
      obtain ⟨pre, post, hsp, hne, hall, hpost⟩ := matchRoom_sound h
      exact ⟨c :: pre, post, by rw [hsp]; rfl, hne, hall, hpost⟩

theorem matchRoom_none :
    ∀ {cs : List Char}, matchRoom cs = none →
      ∀ pre c post, cs = pre ++ roomKey ++ c :: post → c.isWhitespace = true
  | [], h, pre, c, post, heq => by
    have hlen := congrArg List.length heq
    simp only [List.length_nil, List.length_append, List.length_cons] at hlen
    omega
  | x :: rest, h, pre, c, post, heq => by
    rw [matchRoom] at h
    cases pre with
    | nil =>
      have hp : roomKey.isPrefixOf (x :: rest) = true := by
        rw [heq]
        exact isPrefixOf_of_append roomKey (c :: post)
      rw [if_pos hp] at h
      have hdrop : (x :: rest).drop 5 = c :: post := by
        rw [heq, show (5 : Nat) = roomKey.length from by decide]
        exact List.drop_left roomKey (c :: post)
      by_cases he : (((x :: rest).drop 5).takeWhile (fun y => !y.isWhitespace)).isEmpty = true
      · rw [hdrop] at he
        by_cases hws : c.isWhitespace = true
        · exact hws
        · rw [List.takeWhile_cons, if_pos (by simp [hws])] at he
          simp at he
      · rw [if_neg he] at h
        exact absurd h (by simp)
    | cons p ps =>
      have hrest : rest = ps ++ roomKey ++ c :: post := by
        have := congrArg List.tail heq
        simpa using this
      by_cases hp : roomKey.isPrefixOf (x :: rest) = true
      · rw [if_pos hp] at h
        by_cases he : (((x :: rest).drop 5).takeWhile (fun y => !y.isWhitespace)).isEmpty = true
        · rw [if_pos he] at h
          exact matchRoom_none h ps c post hrest
        · rw [if_neg he] at h
          exact absurd h (by simp)
      · rw [if_neg hp] at h
        exact matchRoom_none h ps c post hrest

theorem matchType_sound :
    ∀ {cs t : List Char}, matchType cs = some t →
      t ∈ typeTokens ∧ ∃ pre post, cs = pre ++ t ++ post
  | [], t, h => by simp [matchType] at h
  | c :: rest, t, h => by
    rw [matchType] at h
    cases hf : typeTokens.find? (fun tk => tk.isPrefixOf (c :: rest)) with
    | some tk =>
      rw [hf] at h
      have htk : tk = t := by injection h
      have hpred0 := List.find?_some hf
      have hpred : tk.isPrefixOf (c :: rest) = true := hpred0
      obtain ⟨u, hu⟩ := isPrefixOf_exists hpred
      subst htk
      exact ⟨List.mem_of_find?_eq_some hf, [], u, by simpa using hu⟩
    | none =>
      rw [hf] at h
      obtain ⟨hmem, pre, post, hsp⟩ := matchType_sound h
      exact ⟨hmem, c :: pre, post, by rw [hsp]; rfl⟩

theorem matchType_none :
    ∀ {cs : List Char}, matchType cs = none →
      ∀ t ∈ typeTokens, ∀ pre post, cs ≠ pre ++ t ++ post
  | [], h, t, ht, pre, post, heq => by
    have hall : ∀ t2 ∈ typeTokens, t2 ≠ [] := by decide
    have hne : t ≠ [] := hall t ht
    have hlen := congrArg List.length heq
    simp only [List.length_nil, List.length_append] at hlen
    cases t with
    | nil => exact hne rfl
    | cons a as => simp [List.length_cons] at hlen; omega
  | c :: rest, h, t, ht, pre, post, heq => by
    rw [matchType] at h
    cases hf : typeTokens.find? (fun tk => tk.isPrefixOf (c :: rest)) with
    | some tk => rw [hf] at h; exact absurd h (by simp)
    | none =>
      rw [hf] at h
      cases pre with
      | nil =>
        have : t.isPrefixOf (c :: rest) = true := by
          rw [heq]
          exact isPrefixOf_of_append t post
        exact absurd this (by simpa using List.find?_eq_none.mp hf t ht)
      | cons p ps =>
        have hrest : rest = ps ++ t ++ post := by
          have := congrArg List.tail heq
          simpa using this
        exact matchType_none h t ht ps post hrest

theorem matchDays_sound :
    ∀ {cs : List Char} {d : Char}, matchDays cs = some d →
      (d = 'A' ∨ d = 'B') ∧
        ∃ pre ws post, cs = pre ++ daysKey ++ ws ++ d :: post ∧
          (∀ c ∈ ws, c.isWhitespace = true)
  | [], d, h => by simp [matchDays] at h
  | c :: rest, d, h => by
    rw [matchDays] at h
    by_cases hp : daysKey.isPrefixOf (c :: rest) = true
    · rw [if_pos hp] at h
      obtain ⟨t, ht⟩ := isPrefixOf_exists hp
      have hdrop : (c :: rest).drop 5 = t := by
        rw [ht, show (5 : Nat) = daysKey.length from by decide]
        exact List.drop_left ..
      cases hd : ((c :: rest).drop 5).dropWhile Char.isWhitespace with
      | nil =>
        simp only [hd] at h
        obtain ⟨hab, pre, ws, post, hsp, hws⟩ := matchDays_sound h
        exact ⟨hab, c :: pre, ws, post, by rw [hsp]; rfl, hws⟩
      | cons d2 tail =>
        simp only [hd] at h
        by_cases hab : (d2 == 'A' || d2 == 'B') = true
        · rw [if_pos hab] at h
          have hd2 : d2 = d := by injection h
          subst hd2
          refine ⟨by simpa using hab, [], t.takeWhile Char.isWhitespace, tail, ?_, ?_⟩
          · rw [ht, ← hdrop]
            have := List.takeWhile_append_dropWhile (p := Char.isWhitespace)
              (l := (c :: rest).drop 5)
            rw [hd] at this
            simp only [List.nil_append, List.append_assoc]
            rw [hdrop] at this ⊢
            rw [this]
          · intro x hx
            exact List.mem_takeWhile_imp hx
        · rw [if_neg hab] at h
          obtain ⟨hab2, pre, ws, post, hsp, hws⟩ := matchDays_sound h
          exact ⟨hab2, c :: pre, ws, post, by rw [hsp]; rfl, hws⟩
    · rw [if_neg hp] at h
      obtain ⟨hab, pre, ws, post, hsp, hws⟩ := matchDays_sound h
      exact ⟨hab, c :: pre, ws, post, by rw [hsp]; rfl, hws⟩

theorem matchDays_none :
    ∀ {cs : List Char}, matchDays cs = none →
      ∀ pre ws post d, (∀ c ∈ ws, c.isWhitespace = true) →
        (d = 'A' ∨ d = 'B') → cs ≠ pre ++ daysKey ++ ws ++ d :: post
  | [], h, pre, ws, post, d, hws, hd, heq => by
    have hlen := congrArg List.length heq
    simp only [List.length_nil, List.length_append, List.length_cons] at hlen
    omega
  | c :: rest, h, pre, ws, post, d, hws, hd, heq => by
    rw [matchDays] at h
    have hdns : d.isWhitespace = false := by
      rcases hd with rfl | rfl <;> decide
    cases pre with
    | nil =>
      have hp : daysKey.isPrefixOf (c :: rest) = true := by
        rw [heq, List.append_assoc, List.append_assoc]
        exact isPrefixOf_of_append daysKey (ws ++ d :: post)
      rw [if_pos hp] at h
      have hdrop : (c :: rest).drop 5 = ws ++ d :: post := by
        rw [heq, show (5 : Nat) = daysKey.length from by decide,
          List.append_assoc, List.append_assoc]
        exact List.drop_left daysKey (ws ++ d :: post)
      have hdw : ((c :: rest).drop 5).dropWhile Char.isWhitespace = d :: post := by
        rw [hdrop, List.dropWhile_append_of_pos hws, List.dropWhile_cons,
          if_neg (by simp [hdns])]
      simp only [hdw] at h
      have : (d == 'A' || d == 'B') = true := by
        rcases hd with rfl | rfl <;> decide
      rw [if_pos this] at h
      exact absurd h (by simp)
    | cons p ps =>
      have hrest : rest = ps ++ daysKey ++ ws ++ d :: post := by
        have := congrArg List.tail heq
        simpa using this
      by_cases hp : daysKey.isPrefixOf (c :: rest) = true
      · rw [if_pos hp] at h
        cases hdw : ((c :: rest).drop 5).dropWhile Char.isWhitespace with
        | nil =>
          simp only [hdw] at h
          exact matchDays_none h ps ws post d hws hd hrest
        | cons d2 tail =>
          simp only [hdw] at h
          by_cases hab : (d2 == 'A' || d2 == 'B') = true
          · rw [if_pos hab] at h
            exact absurd h (by simp)
          · rw [if_neg hab] at h
            exact matchDays_none h ps ws post d hws hd hrest
      · rw [if_neg hp] at h
        exact matchDays_none h ps ws post d hws hd hrest

/-! ## The cell-parser loop refines the spec's record tracks -/

theorem trackA_cons (o : ClassObj) (f : Option Char)
    (recs : List (ClassObj × Option Char)) :
    trackA ((o, f) :: recs) =
      if f = some 'B' then trackA recs else o :: trackA recs := by
  by_cases hf : f = some 'B' <;> simp [trackA, List.filterMap_cons, hf]

theorem trackB_cons (o : ClassObj) (f : Option Char)
    (recs : List (ClassObj × Option Char)) :
    trackB ((o, f) :: recs) =
      if f = some 'A' then trackB recs else o :: trackB recs := by
  by_cases hf : f = some 'A' <;> simp [trackB, List.filterMap_cons, hf]

theorem parsePeriodCellLines_eq_tracks :
    ∀ ls : List String,
      parsePeriodCellLines ls = (trackA (cellRecords ls), trackB (cellRecords ls))
  | [] => rfl
  | [l] => by
    rw [parsePeriodCellLines, cellRecords]
    by_cases hl : jsTrim l = ""
    · simp [hl, trackA, trackB]
    · simp [hl, trackA, trackB, List.filterMap_cons]
  | l :: l2 :: rest => by
    rw [parsePeriodCellLines, cellRecords]
    by_cases hdet : detailsLineHas l2 = true
    · rw [if_pos hdet, if_pos hdet]
      rw [trackA_cons, trackB_cons, parsePeriodCellLines_eq_tracks rest]
      by_cases hA : matchDays l2.data = some 'A'
      · have hB : ¬ matchDays l2.data = some 'B' := by simp [hA]
        simp only [if_pos hA, if_neg hB]
      · by_cases hB : matchDays l2.data = some 'B'
        · simp only [if_neg hA, if_pos hB]
        · simp only [if_neg hA, if_neg hB]
    · rw [if_neg hdet, if_neg hdet, parsePeriodCellLines_eq_tracks (l2 :: rest)]
      by_cases hl : jsTrim l = ""
      · simp [hl]
      · simp [hl, trackA_cons, trackB_cons]

/-- Claim C1: in a parsed cell whose first line is a course line immediately
followed by a details line, a day flag of `A` routes the assignment only to
the A-day list, `B` only to the B-day list, and an absent flag appends the
same assignment to both; and both day tracks are the in-source-order
filterings of the cell's records. -/
theorem parsePeriodCell_dayFlag_routing (cell course details : String)
    (rest : List String)
    (hsplit : (splitOnChar '\n' cell.data).map String.mk = course :: details :: rest)
    (htrim : jsTrim cell ≠ "")
    (hdet : detailsLineHas details = true) :
    (matchDays details.data = some 'A' →
      (parsePeriodCell cell).aDayClasses =
        ⟨jsTrim course, roomOf details, typeOf details⟩ ::
          (parsePeriodCellLines rest).1 ∧
      (parsePeriodCell cell).bDayClasses = (parsePeriodCellLines rest).2) ∧
    (matchDays details.data = some 'B' →
      (parsePeriodCell cell).aDayClasses = (parsePeriodCellLines rest).1 ∧
      (parsePeriodCell cell).bDayClasses =
        ⟨jsTrim course, roomOf details, typeOf details⟩ ::
          (parsePeriodCellLines rest).2) ∧
    (matchDays details.data = none →
      (parsePeriodCell cell).aDayClasses =
        ⟨jsTrim course, roomOf details, typeOf details⟩ ::
          (parsePeriodCellLines rest).1 ∧
      (parsePeriodCell cell).bDayClasses =
        ⟨jsTrim course, roomOf details, typeOf details⟩ ::
          (parsePeriodCellLines rest).2) ∧
    (parsePeriodCell cell).aDayClasses =
      trackA (cellRecords (course :: details :: rest)) ∧
    (parsePeriodCell cell).bDayClasses =
      trackB (cellRecords (course :: details :: rest)) := by
  have hcell : parsePeriodCell cell =
      ⟨(parsePeriodCellLines (course :: details :: rest)).1,
       (parsePeriodCellLines (course :: details :: rest)).2⟩ := by
    unfold parsePeriodCell
    rw [if_neg htrim, hsplit]
  have hstep : parsePeriodCellLines (course :: details :: rest) =
      (if matchDays details.data = some 'A' then
        (⟨jsTrim course, roomOf details, typeOf details⟩ ::
          (parsePeriodCellLines rest).1, (parsePeriodCellLines rest).2)
      else if matchDays details.data = some 'B' then
        ((parsePeriodCellLines rest).1,
          ⟨jsTrim course, roomOf details, typeOf details⟩ ::
            (parsePeriodCellLines rest).2)
      else
        (⟨jsTrim course, roomOf details, typeOf details⟩ ::
          (parsePeriodCellLines rest).1,
          ⟨jsTrim course, roomOf details, typeOf details⟩ ::
            (parsePeriodCellLines rest).2)) := by
    rw [parsePeriodCellLines, if_pos hdet]
  refine ⟨?_, ?_, ?_, ?_, ?_⟩
  · intro hA
    have hB : ¬ matchDays details.data = some 'B' := by simp [hA]
    rw [hcell, hstep, if_pos hA]
    exact ⟨rfl, rfl⟩
  · intro hB
    have hA : ¬ matchDays details.data = some 'A' := by simp [hB]
    rw [hcell, hstep, if_neg hA, if_pos hB]
    exact ⟨rfl, rfl⟩
  · intro hnone
    have hA : ¬ matchDays details.data = some 'A' := by simp [hnone]
    have hB : ¬ matchDays details.data = some 'B' := by simp [hnone]
    rw [hcell, hstep, if_neg hA, if_neg hB]
    exact ⟨rfl, rfl⟩
  · rw [hcell, parsePeriodCellLines_eq_tracks (course :: details :: rest)]
  · rw [hcell, parsePeriodCellLines_eq_tracks (course :: details :: rest)]

/-- Witness for claim C1, at the concrete cell
`"Alg\n Room:204 Days:A"`. -/
theorem parsePeriodCell_dayFlag_routing_witness :
    (parsePeriodCell "Alg\n Room:204 Days:A").aDayClasses =
      [⟨"Alg", "204", "FY"⟩] ∧
    (parsePeriodCell "Alg\n Room:204 Days:A").bDayClasses = [] := by
  have h := parsePeriodCell_dayFlag_routing "Alg\n Room:204 Days:A" "Alg"
    " Room:204 Days:A" [] (by decide) (by decide) (by decide)
  have h2 := h.1 (by decide)
  exact ⟨by rw [h2.1]; decide, by rw [h2.2]; decide⟩

/-- Claim C7: a details line is scanned order-independently. The room token
is a maximal non-whitespace run immediately following an occurrence of
`Room:` (and the room is empty exactly when no occurrence of `Room:` is
followed by a non-whitespace character); the term type is one of the seven
tokens occurring as a substring (with default `FY` exactly when none
occurs); the day flag is an `A` or `B` preceded by `Days:` and optional
whitespace (and is absent exactly when no such pattern occurs). -/
theorem detailsLine_scan_spec (ds : String) :
    (∀ tok, matchRoom ds.data = some tok →
      roomOf ds = String.mk tok ∧
      ∃ pre post, ds.data = pre ++ roomKey ++ tok ++ post ∧ tok ≠ [] ∧
        (∀ c ∈ tok, c.isWhitespace = false) ∧
        (∀ c cs2, post = c :: cs2 → c.isWhitespace = true)) ∧
    (matchRoom ds.data = none →
      roomOf ds = "" ∧
      ∀ pre c post, ds.data = pre ++ roomKey ++ c :: post →
        c.isWhitespace = true) ∧
    (∀ t, matchType ds.data = some t →
      typeOf ds = String.mk t ∧ t ∈ typeTokens ∧
        ∃ pre post, ds.data = pre ++ t ++ post) ∧
    (matchType ds.data = none →
      typeOf ds = "FY" ∧ ∀ t ∈ typeTokens, ∀ pre post, ds.data ≠ pre ++ t ++ post) ∧
    (∀ d, matchDays ds.data = some d →
      (d = 'A' ∨ d = 'B') ∧
        ∃ pre ws post, ds.data = pre ++ daysKey ++ ws ++ d :: post ∧
          (∀ c ∈ ws, c.isWhitespace = true)) ∧
    (matchDays ds.data = none →
      ∀ pre ws post d, (∀ c ∈ ws, c.isWhitespace = true) → (d = 'A' ∨ d = 'B') →
        ds.data ≠ pre ++ daysKey ++ ws ++ d :: post) := by
  refine ⟨?_, ?_, ?_, ?_, ?_, ?_⟩
  · intro tok h
    exact ⟨by rw [roomOf, h], matchRoom_sound h⟩
  · intro h
    exact ⟨by rw [roomOf, h], matchRoom_none h⟩
  · intro t h
    obtain ⟨hmem, pre, post, hsp⟩ := matchType_sound h
    exact ⟨by rw [typeOf, h], hmem, pre, post, hsp⟩
  · intro h
    exact ⟨by rw [typeOf, h], matchType_none h⟩
  · intro d h
    exact matchDays_sound h
  · intro h
    exact matchDays_none h

/-- Witness for claim C7, at the concrete details line
`" FY Room:B208 Days:A"`. -/
theorem detailsLine_scan_spec_witness :
    roomOf " FY Room:B208 Days:A" = "B208" ∧
    (∃ pre post, " FY Room:B208 Days:A".data =
      pre ++ roomKey ++ "B208".data ++ post) ∧
    typeOf " FY Room:B208 Days:A" = "FY" ∧
    (∃ pre ws post, " FY Room:B208 Days:A".data =
      pre ++ daysKey ++ ws ++ 'A' :: post) := by
  have h := detailsLine_scan_spec " FY Room:B208 Days:A"
  have hroom := h.1 "B208".data (by decide)
  have htype := h.2.2.1 "FY".data (by decide)
  have hdays := h.2.2.2.2.1 'A' (by decide)
  refine ⟨hroom.1, ?_, htype.1, ?_⟩
  · obtain ⟨pre, post, hsp, -, -, -⟩ := hroom.2
    exact ⟨pre, post, hsp⟩
  · obtain ⟨-, pre, ws, post, hsp, -⟩ := hdays
    exact ⟨pre, ws, post, hsp⟩

/-! ## CSV escaping and the round trip -/

theorem doubleQuotes_length (cs : List Char) :
    cs.length ≤ (doubleQuotes cs).length := by
  induction cs with
  | nil => simp [doubleQuotes]
  | cons c rest ih =>
    rw [doubleQuotes]
    by_cases hc : (c == '"') = true
    · rw [if_pos hc]
      simp only [List.length_cons]
      omega
    · rw [if_neg hc]
      simp only [List.length_cons]
      omega

theorem not_mem_of_contains_eq_false {a : Char} {l : List Char}
    (h : l.contains a = false) : a ∉ l := by
  intro hmem
  have htrue : l.contains a = true := List.elem_iff.mpr hmem
  exact Bool.noConfusion (htrue.symm.trans h)

theorem parseCSVLineAux_plain :
    ∀ (cs cur : List Char), ',' ∉ cs → '"' ∉ cs →
      parseCSVLineAux false cur cs = [cur ++ cs]
  | [], cur, _, _ => by
    rw [parseCSVLineAux]
    simp
  | [c], cur, hcomma, hquote => by
    have hq : (c == '"') = false := by
      simp only [beq_eq_false_iff_ne, ne_eq]
      rintro rfl
      exact hquote (List.mem_cons_self _ _)
    have hcm : (c == ',') = false := by
      simp only [beq_eq_false_iff_ne, ne_eq]
      rintro rfl
      exact hcomma (List.mem_cons_self _ _)
    rw [parseCSVLineAux, if_neg (by simp), if_neg (by simp [hq]),
      if_neg (by simp [hcm])]
  | c :: c2 :: rest, cur, hcomma, hquote => by
    have hq : (c == '"') = false := by
      simp only [beq_eq_false_iff_ne, ne_eq]
      rintro rfl
      exact hquote (List.mem_cons_self _ _)
    have hcm : (c == ',') = false := by
      simp only [beq_eq_false_iff_ne, ne_eq]
      rintro rfl
      exact hcomma (List.mem_cons_self _ _)
    rw [parseCSVLineAux, if_neg (by simp), if_neg (by simp [hq]),
      if_neg (by simp [hcm]),
      parseCSVLineAux_plain (c2 :: rest) (cur ++ [c])
        (fun h => hcomma (List.mem_cons_of_mem _ h))
        (fun h => hquote (List.mem_cons_of_mem _ h))]
    simp

theorem parseCSVLineAux_quoted :
    ∀ (s cur : List Char),
      parseCSVLineAux true cur (doubleQuotes s ++ ['"']) = [cur ++ s]
  | [], cur => by
    show parseCSVLineAux true cur ['"'] = [cur ++ []]
    rw [parseCSVLineAux, if_pos rfl, if_pos (by decide : ('"' == '"') = true)]
    simp
  | c :: s, cur => by
    by_cases hc : (c == '"') = true
    · have heq : c = '"' := by simpa using hc
      subst heq
      have hdq : doubleQuotes ('"' :: s) ++ ['"'] =
          '"' :: '"' :: (doubleQuotes s ++ ['"']) := by
        rw [doubleQuotes, if_pos (by decide : ('"' == '"') = true)]
        simp
      rw [hdq, parseCSVLineAux, if_pos rfl,
        if_pos (by decide : ('"' == '"') = true),
        if_pos (by decide : ('"' == '"') = true),
        parseCSVLineAux_quoted s (cur ++ ['"'])]
      simp
    · have hdq : doubleQuotes (c :: s) ++ ['"'] =
          c :: (doubleQuotes s ++ ['"']) := by
        rw [doubleQuotes, if_neg hc]
        simp
      rw [hdq]
      cases hds : doubleQuotes s ++ ['"'] with
      | nil => simp at hds
      | cons c2 rest2 =>
        rw [parseCSVLineAux, if_pos rfl, if_neg (by simp [hc] :
          ¬ (c == '"') = true), ← hds, parseCSVLineAux_quoted s (cur ++ [c])]
        simp

/-- Claim C6: a field is quoted, doubling inner quotes, exactly when it
contains a comma, a quote, or a newline; and for newline-free fields the
repository's own CSV line parser recovers the original field from the
escaped form. -/
theorem escapeCsv_quote_iff_roundTrip (s : String) :
    (escapeCsv s = s ↔
      (s.data.contains ',' || s.data.contains '"' || s.data.contains '\n') = false) ∧
    ((s.data.contains ',' || s.data.contains '"' || s.data.contains '\n') = true →
      escapeCsv s = String.mk ('"' :: doubleQuotes s.data ++ ['"'])) ∧
    (s.data.contains '\n' = false → parseCSVLine (escapeCsv s) = [s]) := by
  refine ⟨⟨?_, ?_⟩, ?_, ?_⟩
  · intro heq
    cases hspec : (s.data.contains ',' || s.data.contains '"' ||
        s.data.contains '\n') with
    | false => rfl
    | true =>
      rw [escapeCsv, if_pos hspec] at heq
      have hdata := congrArg String.data heq
      have hlen := congrArg List.length hdata
      have hq := doubleQuotes_length s.data
      simp only [List.length_cons, List.length_append] at hlen
      omega
  · intro hspec
    rw [escapeCsv, if_neg (by rw [hspec]; simp)]
  · intro hspec
    rw [escapeCsv, if_pos hspec]
  · intro hnl
    cases hspec : (s.data.contains ',' || s.data.contains '"' ||
        s.data.contains '\n') with
    | true =>
      rw [escapeCsv, if_pos hspec, parseCSVLine]
      show (parseCSVLineAux false [] ('"' :: (doubleQuotes s.data ++ ['"']))).map
        String.mk = [s]
      cases hds : doubleQuotes s.data ++ ['"'] with
      | nil => simp at hds
      | cons c2 rest2 =>
        rw [parseCSVLineAux, if_neg (by simp),
          if_pos (by decide : ('"' == '"') = true), ← hds,
          parseCSVLineAux_quoted s.data []]
        simp [String.mk_data]
    | false =>
      rw [escapeCsv, if_neg (by rw [hspec]; simp), parseCSVLine]
      have h1 := Bool.or_eq_false_iff.mp hspec
      have h2 := Bool.or_eq_false_iff.mp h1.1
      rw [parseCSVLineAux_plain s.data []
        (not_mem_of_contains_eq_false h2.1)
        (not_mem_of_contains_eq_false h2.2)]
      simp [String.mk_data]

/-- Witness for claim C6, at the spec's concrete field
`He said "hi", ok`: the escaped form and the recovered parse. -/
theorem escapeCsv_quote_iff_roundTrip_witness :
    escapeCsv "He said \"hi\", ok" = "\"He said \"\"hi\"\", ok\"" ∧
    parseCSVLine (escapeCsv "He said \"hi\", ok") = ["He said \"hi\", ok"] := by
  refine ⟨by decide, ?_⟩
  exact (escapeCsv_quote_iff_roundTrip "He said \"hi\", ok").2.2 (by decide)

/-! ## Column Mapper lemmas and claim C8 -/

theorem lowerMapFind_some {headers : List String} {k h : String}
    (hf : lowerMapFind headers k = some h) : h ∈ headers ∧ jsNorm h = k := by
  unfold lowerMapFind at hf
  obtain ⟨hne, heq⟩ := List.mem_getLast?_eq_getLast hf
  have hmem : h ∈ headers.filter (fun x => jsNorm x == k) := by
    rw [heq]
    exact List.getLast_mem hne
  have := List.mem_filter.mp hmem
  exact ⟨this.1, by simpa using this.2⟩

theorem lowerMapFind_none {headers : List String} {k : String} :
    lowerMapFind headers k = none ↔ ∀ h ∈ headers, jsNorm h ≠ k := by
  unfold lowerMapFind
  rw [List.getLast?_eq_none_iff, List.filter_eq_nil_iff]
  simp

theorem findColumnName_eq_findColumn :
    ∀ (hs ns : List String), findColumnName hs ns = findColumn hs ns
  | _, [] => rfl
  | hs, n :: rest => by
    rw [findColumnName, findColumn]
    cases hf : lowerMapFind hs (jsNorm n) with
    | none =>
      exact findColumnName_eq_findColumn hs rest
    | some h =>
      show (if (h == "") = true then findColumnName hs rest else some h) =
        (if (h == "") = true then findColumn hs rest else some h)
      by_cases hh : (h == "") = true
      · rw [if_pos hh, if_pos hh]
        exact findColumnName_eq_findColumn hs rest
      · rw [if_neg hh, if_neg hh]

/-- Counterexample for claim C8 as stated: the candidate `""` matches the
header `""` under case-insensitive trimmed comparison, yet `findColumn`
returns `none` (the empty header is falsy in the source's lookup map). -/
theorem findColumn_empty_header_counterexample :
    findColumn [""] [""] = none ∧ jsNorm "" = jsNorm "" ∧
      ("" : String) ∈ ([""] : List String) := by
  exact ⟨by decide, rfl, List.mem_cons_self _ _⟩

/-- Claim C8 (amended): on header lists that do not contain the empty
string, `findColumn` compares case-insensitively and whitespace-trimmed on
both sides, tries candidates in priority order, returns a header matching
the earliest candidate that matches any header, and returns `none` exactly
when no candidate matches any header; `findColumnName` computes the same
function. -/
theorem findColumn_match_spec (headers names : List String)
    (hne : "" ∉ headers) :
    (findColumn headers names = none ↔
      ∀ n ∈ names, ∀ h ∈ headers, jsNorm n ≠ jsNorm h) ∧
    (∀ h, findColumn headers names = some h →
      h ∈ headers ∧ ∃ pre n post, names = pre ++ n :: post ∧
        jsNorm n = jsNorm h ∧
        ∀ n2 ∈ pre, ∀ h2 ∈ headers, jsNorm n2 ≠ jsNorm h2) ∧
    (∀ hs ns, findColumnName hs ns = findColumn hs ns) := by
  induction names with
  | nil =>
    refine ⟨by simp [findColumn], ?_, findColumnName_eq_findColumn⟩
    intro h hcol
    simp [findColumn] at hcol
  | cons n rest ih =>
    have hstep : findColumn headers (n :: rest) =
        (match lowerMapFind headers (jsNorm n) with

         | some h => if h == "" then findColumn headers rest else some h
         | none => findColumn headers rest) := by
      rw [findColumn]
    cases hf : lowerMapFind headers (jsNorm n) with
    | some h0 =>
      obtain ⟨hmem0, hnorm0⟩ := lowerMapFind_some hf
      have hh0 : ¬ (h0 == "") = true := by
        simp only [beq_iff_eq]
        intro hc
        exact hne (hc ▸ hmem0)
      have hcol : findColumn headers (n :: rest) = some h0 := by
        rw [hstep, hf]
        show (if (h0 == "") = true then findColumn headers rest else some h0) =
          some h0
        rw [if_neg hh0]
      refine ⟨?_, ?_, findColumnName_eq_findColumn⟩
      · rw [hcol]
        simp only [reduceCtorEq, false_iff, not_forall]
        push_neg
        exact ⟨n, List.mem_cons_self _ _, h0, hmem0, hnorm0.symm⟩
      · intro h hcol2
        rw [hcol] at hcol2
        have hh : h0 = h := by injection hcol2
        subst hh
        exact ⟨hmem0, [], n, rest, rfl, hnorm0.symm, by simp⟩
    | none =>
      have hnomatch : ∀ h ∈ headers, jsNorm h ≠ jsNorm n :=
        lowerMapFind_none.mp hf
      have hcol : findColumn headers (n :: rest) = findColumn headers rest := by
        rw [hstep, hf]
      refine ⟨?_, ?_, findColumnName_eq_findColumn⟩
      · rw [hcol, ih.1]
        constructor
        · intro hall n2 hn2 h2 hh2
          rcases List.mem_cons.mp hn2 with rfl | hn2
          · exact fun hc => hnomatch h2 hh2 hc.symm
          · exact hall n2 hn2 h2 hh2
        · intro hall n2 hn2 h2 hh2
          exact hall n2 (List.mem_cons_of_mem _ hn2) h2 hh2
      · intro h hcol2
        rw [hcol] at hcol2
        obtain ⟨hmem, pre, n2, post, hsp, hnorm, hpre⟩ := ih.2.1 h hcol2
        refine ⟨hmem, n :: pre, n2, post, by rw [hsp]; rfl, hnorm, ?_⟩
        intro n3 hn3 h3 hh3
        rcases List.mem_cons.mp hn3 with rfl | hn3
        · exact fun hc => hnomatch h3 hh3 hc.symm
        · exact hpre n3 hn3 h3 hh3

/-- Witness for claim C8, on the concrete headers
`["Dept", "Teacher Name"]` with the source's teacher candidate list. -/
theorem findColumn_match_spec_witness :
    ("" : String) ∉ (["Dept", "Teacher Name"] : List String) ∧
    findColumn ["Dept", "Teacher Name"] teacherCandidates =
      some "Teacher Name" ∧
    ("Teacher Name" : String) ∈ (["Dept", "Teacher Name"] : List String) := by
  have h := findColumn_match_spec ["Dept", "Teacher Name"] teacherCandidates
    (by decide)
  have h2 := h.2.1 "Teacher Name" (by decide)
  exact ⟨by decide, by decide, h2.1⟩

/-! ## Validator lemmas -/

theorem dupIssue_ne_missingIssue (x : String) : dupIssue x ≠ missingIssue := by
  intro h
  injection h with hsev hmsg
  exact absurd hsev (by decide)

theorem allPrepIssue_ne_missingIssue (x : String) :
    allPrepIssue x ≠ missingIssue := by
  intro h
  injection h with hsev hmsg
  exact absurd hsev (by decide)

theorem typoIssue_ne_missingIssue (x y : String) :
    typoIssue x y ≠ missingIssue := by
  intro h
  injection h with hsev hmsg
  exact absurd hsev (by decide)

theorem dupIssue_ne_allPrepIssue (x y : String) : dupIssue x ≠ allPrepIssue y := by
  intro h
  injection h with hsev hmsg
  have hd := congrArg String.data hmsg
  rw [String.data_append, String.data_append] at hd
  rw [show ("Duplicate teacher: " : String).data =
      'D' :: ("uplicate teacher: " : String).data from by decide,
    show ("All-prep schedule: " : String).data =
      'A' :: ("ll-prep schedule: " : String).data from by decide] at hd
  simp only [List.cons_append] at hd
  have hh := congrArg List.head? hd
  simp only [List.head?_cons] at hh
  injection hh with hh2
  exact absurd hh2 (by decide)

theorem dupIssue_inj {x y : String} (h : dupIssue x = dupIssue y) : x = y := by
  injection h with hsev hmsg
  have hd := congrArg String.data hmsg
  rw [String.data_append, String.data_append] at hd
  have := List.append_cancel_left hd
  exact String.ext this

theorem count_singleton_of_ne {a b : Issue} (h : b ≠ a) :
    ([b] : List Issue).count a = 0 := by
  simp [List.count_cons, beq_iff_eq, h]

theorem mem_perTeacherIssues {i : Issue} {seen : List String} {t : TeacherRec} :
    i ∈ perTeacherIssues seen t ↔
      (jsTrim t.teacher = "" ∧ i = missingIssue) ∨
      (seen.contains (jsToLower t.teacher) = true ∧ i = dupIssue t.teacher) ∨
      (allPrepFlag t = true ∧ i = allPrepIssue t.teacher) := by
  unfold perTeacherIssues
  by_cases h1 : jsTrim t.teacher = "" <;>
    by_cases h2 : seen.contains (jsToLower t.teacher) = true <;>
      by_cases h3 : allPrepFlag t = true <;>
        simp [h1, h2, h3]

theorem perTeacherIssues_count_allPrep (seen : List String) (t : TeacherRec) :
    (perTeacherIssues seen t).count (allPrepIssue t.teacher) =
      if allPrepFlag t = true then 1 else 0 := by
  unfold perTeacherIssues
  rw [List.count_append, List.count_append]
  have e1 : ((if jsTrim t.teacher = "" then [missingIssue] else []) :
      List Issue).count (allPrepIssue t.teacher) = 0 := by
    by_cases h : jsTrim t.teacher = ""
    · rw [if_pos h]
      exact count_singleton_of_ne (Ne.symm (allPrepIssue_ne_missingIssue t.teacher))
    · rw [if_neg h]
      rfl
  have e2 : ((if seen.contains (jsToLower t.teacher) = true then
      [dupIssue t.teacher] else []) : List Issue).count (allPrepIssue t.teacher) = 0 := by
    by_cases h : seen.contains (jsToLower t.teacher) = true
    · rw [if_pos h]
      exact count_singleton_of_ne (dupIssue_ne_allPrepIssue t.teacher t.teacher)
    · rw [if_neg h]
      rfl
  rw [e1, e2]
  by_cases h : allPrepFlag t = true
  · rw [if_pos h, if_pos h]
    simp
  · rw [if_neg h, if_neg h]
    rfl

theorem perTeacherIssues_count_dup (seen : List String) (t : TeacherRec) :
    (perTeacherIssues seen t).count (dupIssue t.teacher) =
      if seen.contains (jsToLower t.teacher) = true then 1 else 0 := by
  unfold perTeacherIssues
  rw [List.count_append, List.count_append]
  have e1 : ((if jsTrim t.teacher = "" then [missingIssue] else []) :
      List Issue).count (dupIssue t.teacher) = 0 := by
    by_cases h : jsTrim t.teacher = ""
    · rw [if_pos h]
      exact count_singleton_of_ne (Ne.symm (dupIssue_ne_missingIssue t.teacher))
    · rw [if_neg h]
      rfl
  have e3 : ((if allPrepFlag t = true then [allPrepIssue t.teacher] else []) :
      List Issue).count (dupIssue t.teacher) = 0 := by
    by_cases h : allPrepFlag t = true
    · rw [if_pos h]
      exact count_singleton_of_ne
        (Ne.symm (dupIssue_ne_allPrepIssue t.teacher t.teacher))
    · rw [if_neg h]
      rfl
  rw [e1, e3]
  by_cases h : seen.contains (jsToLower t.teacher) = true
  · rw [if_pos h, if_pos h]
    simp
  · rw [if_neg h, if_neg h]
    rfl

theorem validateLoop_cons_fst (seen : List String) (t : TeacherRec)
    (ts : List TeacherRec) :
    (validateLoop seen (t :: ts)).1 =
      perTeacherIssues seen t ++
        (validateLoop (jsToLower t.teacher :: seen) ts).1 := rfl

theorem validateLoop_cons_snd (seen : List String) (t : TeacherRec)
    (ts : List TeacherRec) :
    (validateLoop seen (t :: ts)).2 =
      teacherCourses t ++ (validateLoop (jsToLower t.teacher :: seen) ts).2 := rfl

theorem validateLoop_append :
    ∀ (xs : List TeacherRec) (seen : List String) (ys : List TeacherRec),
      (validateLoop seen (xs ++ ys)).1 =
        (validateLoop seen xs).1 ++ (validateLoop (seenList xs ++ seen) ys).1
  | [], seen, ys => by simp [validateLoop, seenList]
  | x :: xs, seen, ys => by
    rw [List.cons_append, validateLoop_cons_fst, validateLoop_cons_fst,
      validateLoop_append xs (jsToLower x.teacher :: seen) ys,
      List.append_assoc]
    have hseen : seenList xs ++ (jsToLower x.teacher :: seen) =
        seenList (x :: xs) ++ seen := by
      simp [seenList]
    rw [hseen]

theorem validateLoop_snd_eq :
    ∀ (ts : List TeacherRec) (seen : List String),
      (validateLoop seen ts).2 = ts.flatMap teacherCourses
  | [], seen => rfl
  | t :: ts, seen => by
    rw [validateLoop_cons_snd, validateLoop_snd_eq ts]
    rfl

theorem validateSchedule_decompose (pre : List TeacherRec) (t : TeacherRec)
    (post : List TeacherRec) (str : String) :
    validateSchedule (pre ++ t :: post) str =
      (validateLoop [] pre).1 ++
        (perTeacherIssues (seenList pre) t ++
          ((validateLoop (jsToLower t.teacher :: seenList pre) post).1 ++
            (typoPairs (pre ++ t :: post) str).map
              (fun p => typoIssue p.1 p.2))) := by
  unfold validateSchedule
  rw [validateLoop_append pre [] (t :: post), List.append_nil,
    validateLoop_cons_fst]
  simp [List.append_assoc]

theorem map_joinWithChar (f : Char → Char) (sep : Char) :
    ∀ parts : List (List Char),
      (joinWithChar sep parts).map f =
        joinWithChar (f sep) (parts.map (List.map f))
  | [] => rfl
  | [x] => rfl
  | x :: y :: rest => by
    show (x ++ sep :: joinWithChar sep (y :: rest)).map f =
      x.map f ++ f sep :: joinWithChar (f sep) ((y :: rest).map (List.map f))
    rw [List.map_append]
    rw [show (sep :: joinWithChar sep (y :: rest)).map f =
      f sep :: (joinWithChar sep (y :: rest)).map f from rfl]
    rw [map_joinWithChar f sep (y :: rest)]

theorem allPrepFlag_iff (t : TeacherRec) :
    allPrepFlag t = true ↔
      ((∀ cell ∈ t.data, containsStr "(room:" (jsToLower cell) = false) ∧
        ∀ cell ∈ t.data.drop 2, cell = "Prep" ∨ cell = "") := by
  unfold allPrepFlag
  rw [Bool.and_eq_true, Bool.not_eq_true']
  have hjoin : (jsToLower (joinBar t.data)).data =
      joinWithChar '|' (t.data.map (fun s => s.data.map Char.toLower)) := by
    show (joinWithChar '|' (t.data.map String.data)).map Char.toLower =
      joinWithChar '|' (t.data.map (fun s => s.data.map Char.toLower))
    rw [map_joinWithChar Char.toLower '|' (t.data.map String.data)]
    rw [show Char.toLower '|' = '|' from by decide]
    rw [List.map_map]
    rfl
  have hcontains : containsStr "(room:" (jsToLower (joinBar t.data)) = false ↔
      ∀ cell ∈ t.data, containsStr "(room:" (jsToLower cell) = false := by
    show containsSub ("(room:").data (jsToLower (joinBar t.data)).data = false ↔ _
    rw [hjoin]
    cases hdata : t.data with
    | nil => simp [joinWithChar, containsSub]
    | cons x xs =>
      have hne : (x :: xs).map (fun s => s.data.map Char.toLower) ≠ [] := by simp
      have hsep : '|' ∉ ("(room:").data := by decide
      constructor
      · intro hfalse cell hcell
        by_contra hc
        rw [Bool.not_eq_false] at hc
        have : ∃ p ∈ (x :: xs).map (fun s => s.data.map Char.toLower),
            containsSub ("(room:").data p = true :=
          ⟨cell.data.map Char.toLower, List.mem_map_of_mem _ hcell, hc⟩
        rw [← containsSub_joinWith hsep _ hne] at this
        rw [hfalse] at this
        cases this
      · intro hall
        by_contra hc
        rw [Bool.not_eq_false] at hc
        obtain ⟨p, hp, hcp⟩ :=
          (containsSub_joinWith hsep _ hne).mp hc
        obtain ⟨cell, hcell, rfl⟩ := List.mem_map.mp hp
        have h3 : containsSub ("(room:").data (cell.data.map Char.toLower) = false :=
          hall cell hcell
        rw [h3] at hcp
        cases hcp
  rw [hcontains, List.all_eq_true]
  constructor
  · rintro ⟨h1, h2⟩
    refine ⟨h1, fun cell hcell => ?_⟩
    have := h2 cell hcell
    simpa using this
  · rintro ⟨h1, h2⟩
    refine ⟨h1, fun cell hcell => ?_⟩
    have := h2 cell hcell
    simpa using this

/-- Counterexample for claim C4 as stated: a row whose department cell is
`"(room:"` (lower case) has every period cell exactly `"Prep"` and no cell
containing the literal substring `"(Room:"`, yet the Validator emits no
all-prep warning, because the source's check lower-cases the joined row
(including the department and name cells) before looking for `"(room:"`. -/
theorem allPrep_caseFold_counterexample :
    validateSchedule [⟨"T", "(room:", ["(room:", "T", "Prep"]⟩] "prep" = [] ∧
    ((["(room:", "T", "Prep"] : List String).drop 2).all
      (fun c => c == "Prep" || c == "") = true ∧
    (["(room:", "T", "Prep"] : List String).all
      (fun c => !(containsStr "(Room:" c)) = true := by decide

/-- Claim C4 (amended): for every teacher row, the validator loop emits
exactly one all-prep warning when every period cell is exactly `Prep` or
empty and no data cell (the department and teacher name cells included)
contains `"(room:"` case-insensitively, and none otherwise; and within the
full `validateSchedule` run the row's issues appear exactly in its slot of
the row order. -/
theorem validate_allPrep_characterization (t : TeacherRec) (seen : List String) :
    ((perTeacherIssues seen t).count (allPrepIssue t.teacher) =
      if ((∀ cell ∈ t.data, containsStr "(room:" (jsToLower cell) = false) ∧
          ∀ cell ∈ t.data.drop 2, cell = "Prep" ∨ cell = "") then 1 else 0) ∧
    (∀ pre post str, validateSchedule (pre ++ t :: post) str =
      (validateLoop [] pre).1 ++
        (perTeacherIssues (seenList pre) t ++
          ((validateLoop (jsToLower t.teacher :: seenList pre) post).1 ++
            (typoPairs (pre ++ t :: post) str).map
              (fun p => typoIssue p.1 p.2)))) := by
  constructor
  · rw [perTeacherIssues_count_allPrep]
    by_cases hcond : ((∀ cell ∈ t.data, containsStr "(room:" (jsToLower cell) = false) ∧
        ∀ cell ∈ t.data.drop 2, cell = "Prep" ∨ cell = "")
    · rw [if_pos ((allPrepFlag_iff t).mpr hcond), if_pos hcond]
    · rw [if_neg (fun hc => hcond ((allPrepFlag_iff t).mp hc)), if_neg hcond]
  · intro pre post str
    exact validateSchedule_decompose pre t post str

/-- Claim C9: a duplicate-teacher warning is emitted for a row exactly when
some earlier row has a case-insensitively equal teacher name (exactly once
for each such row), and the warning sits in the duplicate row's own slot of
the output order — first seen, then duplicates. -/
theorem validate_duplicate_order (pre : List TeacherRec) (t : TeacherRec)
    (post : List TeacherRec) (str : String) :
    ((perTeacherIssues (seenList pre) t).count (dupIssue t.teacher) =
      if ∃ p ∈ pre, jsToLower p.teacher = jsToLower t.teacher then 1 else 0) ∧
    (validateSchedule (pre ++ t :: post) str =
      (validateLoop [] pre).1 ++
        (perTeacherIssues (seenList pre) t ++
          ((validateLoop (jsToLower t.teacher :: seenList pre) post).1 ++
            (typoPairs (pre ++ t :: post) str).map
              (fun p => typoIssue p.1 p.2)))) := by
  constructor
  · rw [perTeacherIssues_count_dup]
    have hmem : (seenList pre).contains (jsToLower t.teacher) = true ↔
        ∃ p ∈ pre, jsToLower p.teacher = jsToLower t.teacher := by
      rw [List.elem_iff]
      simp [seenList, List.mem_reverse, List.mem_map]
    by_cases hex : ∃ p ∈ pre, jsToLower p.teacher = jsToLower t.teacher
    · rw [if_pos (hmem.mpr hex), if_pos hex]
    · rw [if_neg (fun hc => hex (hmem.mp hc)), if_neg hex]
  · exact validateSchedule_decompose pre t post str

/-! ## Validator: missing-name issues and the Normalizer's output -/

theorem validateLoop_no_missing :
    ∀ (ts : List TeacherRec) (seen : List String),
      (∀ t ∈ ts, jsTrim t.teacher ≠ "") →
        missingIssue ∉ (validateLoop seen ts).1
  | [], seen, h => by simp [validateLoop]
  | t :: ts, seen, h => by
    rw [validateLoop_cons_fst]
    intro hmem
    rcases List.mem_append.mp hmem with h1 | h1
    · rcases mem_perTeacherIssues.mp h1 with ⟨hcond, -⟩ | ⟨-, heq⟩ | ⟨-, heq⟩
      · exact h t (List.mem_cons_self _ _) hcond
      · exact dupIssue_ne_missingIssue t.teacher heq.symm
      · exact allPrepIssue_ne_missingIssue t.teacher heq.symm
    · exact validateLoop_no_missing ts _
        (fun x hx => h x (List.mem_cons_of_mem _ hx)) h1

theorem parseExcelSchedule_teachers_names
    (data : List (List (String × String))) (str : String) :
    ∀ t ∈ (parseExcelSchedule data str).teachers,
      t.teacher ≠ "" ∧ jsTrim t.teacher = t.teacher := by
  intro t ht
  cases data with
  | nil => simp [parseExcelSchedule] at ht
  | cons r0 rest =>
    obtain ⟨row, hrow, hsome⟩ := List.mem_filterMap.mp ht
    unfold rowToTeacher at hsome
    by_cases hname : resolveField
        (findColumnName (r0.map (fun p => p.1)) teacherCandidates) row = ""
    · rw [if_pos hname] at hsome
      cases hsome
    · rw [if_neg hname] at hsome
      injection hsome with h2
      subst h2
      refine ⟨hname, ?_⟩
      show jsTrim (resolveField
        (findColumnName (r0.map (fun p => p.1)) teacherCandidates) row) = _
      unfold resolveField
      cases findColumnName (r0.map (fun p => p.1)) teacherCandidates with
      | none => exact (by decide : jsTrim "" = "")
      | some c => exact jsTrim_idem (rowLookup row c)

/-- Claim C5: every teacher row produced by the Normalizer has a non-empty,
already-trimmed teacher name, and consequently the Validator never emits
the missing-teacher-name error on the Normalizer's own output. -/
theorem normalizer_nonempty_names_no_error
    (data : List (List (String × String))) (str str2 : String) :
    (∀ t ∈ (parseExcelSchedule data str).teachers,
      t.teacher ≠ "" ∧ jsTrim t.teacher = t.teacher) ∧
    missingIssue ∉ validateSchedule (parseExcelSchedule data str).teachers str2 := by
  have hnames := parseExcelSchedule_teachers_names data str
  refine ⟨hnames, ?_⟩
  intro hmem
  unfold validateSchedule at hmem
  rcases List.mem_append.mp hmem with h1 | h1
  · refine validateLoop_no_missing _ [] (fun t ht => ?_) h1
    obtain ⟨hne, hidem⟩ := hnames t ht
    rw [hidem]
    exact hne
  · obtain ⟨p, hp, heq⟩ := List.mem_map.mp h1
    exact typoIssue_ne_missingIssue p.1 p.2 heq

/-- Witness for claim C5, on a concrete one-row table. -/
theorem normalizer_nonempty_names_no_error_witness :
    missingIssue ∉ validateSchedule
      (parseExcelSchedule
        [[("Teacher", "Lee, Anna"), ("Department", "Math"), ("Period 1", "Algebra")]]
        "prep").teachers "prep" ∧
    (TeacherRec.mk "Lee, Anna" "Math"
        ["Math", "Lee, Anna", "Algebra", "Algebra"]).teacher ≠ "" := by
  have h := normalizer_nonempty_names_no_error
    [[("Teacher", "Lee, Anna"), ("Department", "Math"), ("Period 1", "Algebra")]]
    "prep" "prep"
  refine ⟨h.2, ?_⟩
  exact (h.1 ⟨"Lee, Anna", "Math", ["Math", "Lee, Anna", "Algebra", "Algebra"]⟩
    (by decide)).1

/-! ## Typo detection -/

theorem find?_congr {p q : String → Bool} :
    ∀ l : List String, (∀ x ∈ l, p x = q x) → l.find? p = l.find? q
  | [], _ => rfl
  | x :: xs, h => by
    rw [List.find?_cons, List.find?_cons, h x (List.mem_cons_self _ _)]
    cases hq : q x with
    | true => rfl
    | false => exact find?_congr xs (fun y hy => h y (List.mem_cons_of_mem _ hy))

theorem countP_filterMap_pairs_zero {f : String → Option String} {c : String} :
    ∀ l : List String, c ∉ l →
      ((l.filterMap (fun x => (f x).map (fun y => (x, y)))).countP
        (fun p => p.1 == c)) = 0
  | [], _ => rfl
  | x :: xs, h => by
    have hx : (x == c) = false := by
      simp only [beq_eq_false_iff_ne, ne_eq]
      rintro rfl
      exact h (List.mem_cons_self _ _)
    have hxs : c ∉ xs := fun hc => h (List.mem_cons_of_mem _ hc)
    rw [List.filterMap_cons]
    cases hf : f x with
    | none => exact countP_filterMap_pairs_zero xs hxs
    | some y =>
      show ((x, y) :: xs.filterMap
        (fun x => (f x).map (fun y => (x, y)))).countP (fun p => p.1 == c) = 0
      rw [show ((x, y) :: xs.filterMap
          (fun x => (f x).map (fun y => (x, y)))).countP (fun p => p.1 == c) =
        (xs.filterMap (fun x => (f x).map (fun y => (x, y)))).countP
          (fun p => p.1 == c) + if ((x, y).1 == c) = true then 1 else 0 from
        List.countP_cons ..]
      rw [countP_filterMap_pairs_zero xs hxs]
      simp [hx]

theorem countP_filterMap_pairs_le_one {f : String → Option String} {c : String} :
    ∀ l : List String, l.Nodup →
      ((l.filterMap (fun x => (f x).map (fun y => (x, y)))).countP
        (fun p => p.1 == c)) ≤ 1
  | [], _ => by simp
  | x :: xs, h => by
    obtain ⟨hx, hxs⟩ := List.nodup_cons.mp h
    rw [List.filterMap_cons]
    cases hf : f x with
    | none => exact countP_filterMap_pairs_le_one xs hxs
    | some y =>
      show ((x, y) :: xs.filterMap
        (fun x => (f x).map (fun y => (x, y)))).countP (fun p => p.1 == c) ≤ 1
      rw [show ((x, y) :: xs.filterMap
          (fun x => (f x).map (fun y => (x, y)))).countP (fun p => p.1 == c) =
        (xs.filterMap (fun x => (f x).map (fun y => (x, y)))).countP
          (fun p => p.1 == c) + if ((x, y).1 == c) = true then 1 else 0 from
        List.countP_cons ..]
      by_cases hxc : (x == c) = true
      · have hcc : c ∉ xs := by
          have : x = c := by simpa using hxc
          exact this ▸ hx
        rw [countP_filterMap_pairs_zero xs hcc]
        simp only [zero_add]
        split <;> omega
      · have := countP_filterMap_pairs_le_one xs hxs (f := f) (c := c)
        simp only [show ((x, y).1 == c) = false from by simpa using hxc]
        simpa using this

theorem mem_typoPairs_iff {teachers : List TeacherRec} {str c l : String} :
    (c, l) ∈ typoPairs teachers str ↔
      c ∈ dedupFirst [] (validateLoop [] teachers).2 ∧
        findTypoLabel (knownLabels str) c = some l := by
  unfold typoPairs
  rw [List.mem_filterMap]
  constructor
  · rintro ⟨a, ha, hsome⟩
    obtain ⟨v, hv, hpair⟩ := Option.map_eq_some'.mp hsome
    have h1 : a = c := congrArg Prod.fst hpair
    have h2 : v = l := congrArg Prod.snd hpair
    subst h1
    subst h2
    exact ⟨ha, hv⟩
  · rintro ⟨hmem, hfind⟩
    refine ⟨c, hmem, ?_⟩
    rw [hfind]
    rfl

theorem mem_teacherCourses {c : String} {t : TeacherRec} :
    c ∈ teacherCourses t ↔
      c ∈ t.data.drop 2 ∧ c ≠ "" ∧
        containsStr "(Room:" c = false ∧ c ≠ "Prep" := by
  unfold teacherCourses
  rw [List.mem_filter]
  simp only [Bool.and_eq_true, Bool.not_eq_true', beq_eq_false_iff_ne, ne_eq,
    Bool.not_eq_true]
  tauto

theorem findTypoLabel_eq (labels : List String) (c : String)
    (hc3 : containsStr "(room:" (jsToLower c) = false) :
    findTypoLabel labels c = labels.find? (fun label =>
      decide (0 < levenshteinDistance (jsToLower c) label) &&
      decide (levenshteinDistance (jsToLower c) label ≤ 2)) := by
  unfold findTypoLabel
  apply find?_congr
  intro x hx
  rw [hc3]
  simp

/-- Counterexample for claim C3 as stated, at two inputs. First: the empty
course cell is not `"Prep"` and does not contain `"(Room:"`, and its
case-folded Levenshtein distance to the configured label `"a"` is 1, yet no
typo warning is emitted (empty cells are falsy and never collected).
Second: the cell `"(ROOM:"` does not contain `"(Room:"` literally and has
distance 1 to the configured label `"room:"`, yet no typo warning is
emitted (the source suppresses courses whose case-folded form contains
`"(room:"`). -/
theorem typo_warning_counterexample :
    (validateSchedule [⟨"T", "", ["", "T", ""]⟩] "a" = [allPrepIssue "T"] ∧
      levenshteinDistance (jsToLower "") "a" = 1 ∧
      ("" : String) ≠ "Prep" ∧ containsStr "(Room:" "" = false ∧
      ("" : String) ∈ (["", "T", ""] : List String).drop 2) ∧
    (validateSchedule [⟨"T", "", ["", "T", "(ROOM:"]⟩] "room:" = [] ∧
      typoPairs [⟨"T", "", ["", "T", "(ROOM:"]⟩] "room:" = [] ∧
      levenshteinDistance (jsToLower "(ROOM:") "room:" = 1 ∧
      containsStr "(Room:" "(ROOM:" = false ∧ ("(ROOM:" : String) ≠ "Prep" ∧
      ("(ROOM:" : String) ∈ (["", "T", "(ROOM:"] : List String).drop 2) := by
  decide

/-- Claim C3 (amended): for a non-empty course cell value that is not
`"Prep"`, does not contain `"(Room:"`, and whose case-folded form does not
contain `"(room:"`, the Validator emits a typo warning exactly when some
configured label is at case-folded Levenshtein distance between 1 and 2; at
most one warning is emitted per distinct course string; the label named is
the first configured label within distance; and each warned pair produces
its warning in the `validateSchedule` output. -/
theorem validate_typo_characterization (teachers : List TeacherRec)
    (str c : String) (hc0 : c ≠ "") (hc1 : c ≠ "Prep")
    (hc2 : containsStr "(Room:" c = false)
    (hc3 : containsStr "(room:" (jsToLower c) = false)
    (hmem : ∃ t ∈ teachers, c ∈ t.data.drop 2) :
    ((∃ l, (c, l) ∈ typoPairs teachers str) ↔
      ∃ l ∈ knownLabels str, 0 < levenshteinDistance (jsToLower c) l ∧
        levenshteinDistance (jsToLower c) l ≤ 2) ∧
    ((typoPairs teachers str).countP (fun p => p.1 == c) ≤ 1) ∧
    (∀ l, (c, l) ∈ typoPairs teachers str →
      (knownLabels str).find? (fun label =>
        decide (0 < levenshteinDistance (jsToLower c) label) &&
        decide (levenshteinDistance (jsToLower c) label ≤ 2)) = some l) ∧
    (∀ l, (c, l) ∈ typoPairs teachers str →
      typoIssue c l ∈ validateSchedule teachers str) := by
  have hdedup : c ∈ dedupFirst [] (validateLoop [] teachers).2 := by
    rw [mem_dedupFirst]
    refine ⟨?_, by simp⟩
    rw [validateLoop_snd_eq, List.mem_flatMap]
    obtain ⟨t, ht, hcell⟩ := hmem
    exact ⟨t, ht, mem_teacherCourses.mpr ⟨hcell, hc0, hc2, hc1⟩⟩
  refine ⟨⟨?_, ?_⟩, ?_, ?_, ?_⟩
  · rintro ⟨l, hpair⟩
    obtain ⟨-, hfind⟩ := mem_typoPairs_iff.mp hpair
    rw [findTypoLabel_eq _ _ hc3] at hfind
    have hmeml := List.mem_of_find?_eq_some hfind
    have hpred0 := List.find?_some hfind
    have hpred : (decide (0 < levenshteinDistance (jsToLower c) l) &&
        decide (levenshteinDistance (jsToLower c) l ≤ 2)) = true := hpred0
    rw [Bool.and_eq_true, decide_eq_true_eq, decide_eq_true_eq] at hpred
    exact ⟨l, hmeml, hpred⟩
  · rintro ⟨l, hl, h1, h2⟩
    have hsome : ((knownLabels str).find? (fun label =>
        decide (0 < levenshteinDistance (jsToLower c) label) &&
        decide (levenshteinDistance (jsToLower c) label ≤ 2))).isSome := by
      rw [List.find?_isSome]
      exact ⟨l, hl, by rw [Bool.and_eq_true, decide_eq_true_eq,
        decide_eq_true_eq]; exact ⟨h1, h2⟩⟩
    obtain ⟨l0, hl0⟩ := Option.isSome_iff_exists.mp hsome
    refine ⟨l0, mem_typoPairs_iff.mpr ⟨hdedup, ?_⟩⟩
    rw [findTypoLabel_eq _ _ hc3]
    exact hl0
  · exact countP_filterMap_pairs_le_one _ (nodup_dedupFirst _ _)
  · intro l hpair
    obtain ⟨-, hfind⟩ := mem_typoPairs_iff.mp hpair
    rw [findTypoLabel_eq _ _ hc3] at hfind
    exact hfind
  · intro l hpair
    unfold validateSchedule
    refine List.mem_append.mpr (Or.inr ?_)
    exact List.mem_map.mpr ⟨(c, l), hpair, rfl⟩

/-- Witness for claim C3, with course `"perp"` and label `"prep"`
(distance 2). -/
theorem validate_typo_characterization_witness :
    ∃ l, (("perp" : String), l) ∈
      typoPairs [⟨"T", "", ["", "T", "perp"]⟩] "prep" := by
  have h := validate_typo_characterization [⟨"T", "", ["", "T", "perp"]⟩]
    "prep" "perp" (by decide) (by decide) (by decide) (by decide)
    (by decide)
  exact h.1.mpr (by decide)

/-! ## Normalizer: per-cell formatting and rectangular output -/

theorem orPrep_formatClassForCsv (l : List ClassObj) :
    orPrep (formatClassForCsv l) = specFormatDay l := by
  cases l with
  | nil => rfl
  | cons c rest => rfl

theorem cellPair_eq_specCellPair (labels : List String)
    (row : List (String × String)) (pc : String) :
    cellPair labels row pc = specCellPair labels (jsTrim (rowLookup row pc)) := by
  unfold cellPair specCellPair
  by_cases h : labels.contains (jsToLower (jsTrim (rowLookup row pc))) = true
  · rw [if_pos h, if_pos h]
  · rw [if_neg h, if_neg h]
    show [orPrep (formatClassForCsv
        (parsePeriodCell (jsTrim (rowLookup row pc))).aDayClasses),
      orPrep (formatClassForCsv
        (parsePeriodCell (jsTrim (rowLookup row pc))).bDayClasses)] = _
    rw [orPrep_formatClassForCsv, orPrep_formatClassForCsv]

theorem cellPair_length (labels : List String) (row : List (String × String))
    (pc : String) : (cellPair labels row pc).length = 2 := by
  unfold cellPair
  by_cases h : labels.contains (jsToLower (jsTrim (rowLookup row pc))) = true
  · rw [if_pos h]
    rfl
  · rw [if_neg h]
    rfl

theorem length_flatMap_two {α β : Type} (g : α → List β)
    (h2 : ∀ x, (g x).length = 2) :
    ∀ l : List α, (l.flatMap g).length = 2 * l.length
  | [] => rfl
  | x :: xs => by
    rw [List.flatMap_cons, List.length_append, h2, length_flatMap_two g h2 xs]
    simp [List.length_cons]
    omega

theorem parseExcelSchedule_cons (r0 : List (String × String))
    (rest : List (List (String × String))) (str : String) :
    parseExcelSchedule (r0 :: rest) str =
      ⟨["Department", "Teacher"] ++
        ((r0.map (fun p => p.1)).filter
          (fun h => containsStr "period" (jsToLower h))).flatMap
            (fun pc => [pc ++ " A Day", pc ++ " B Day"]),
       (r0 :: rest).filterMap (rowToTeacher (parseLabelsList str)
         (findColumnName (r0.map (fun p => p.1)) teacherCandidates)
         (findColumnName (r0.map (fun p => p.1)) deptCandidates)
         ((r0.map (fun p => p.1)).filter
           (fun h => containsStr "period" (jsToLower h)))),
       (r0.map (fun p => p.1)).filter
         (fun h => containsStr "period" (jsToLower h))⟩ := rfl

/-- Counterexample for claim C2 as stated: in the cell
`"A\nRoom:1 Days:A\n\nDays:B"` the B-day list is the non-empty
`[⟨"", "", "FY"⟩]`, whose first assignment formats (per the claim's wording)
to the empty string, yet the Normalizer emits `"Prep"` for the B-day cell:
`Prep` is emitted whenever the formatted string is empty, not only when the
day's assignment list is empty. -/
theorem cellPair_empty_course_counterexample :
    cellPair (parseLabelsList "prep")
        [("Period 1", "A\nRoom:1 Days:A\n\nDays:B")] "Period 1" =
      ["A (Room: 1)", "Prep"] ∧
    (parsePeriodCell (jsTrim (rowLookup
        [("Period 1", "A\nRoom:1 Days:A\n\nDays:B")] "Period 1"))).bDayClasses =
      [⟨"", "", "FY"⟩] ∧
    claimFormatDay [⟨"", "", "FY"⟩] = "" ∧
    ("Prep" : String) ≠ "" := by
  decide

/-- Claim C2 (amended): every row that yields a teacher contributes the
record whose data is the department and name cells followed by exactly two
cells per detected period column; a period cell pair is `Prep`/`Prep` when
the trimmed case-folded cell matches a configured label, and otherwise each
day shows the first assignment, formatted with the room when present, with
`Prep` both when the day's list is empty and when the formatted first
assignment is the empty string. -/
theorem normalizer_cellPair_spec (r0 : List (String × String))
    (rest : List (List (String × String))) (row : List (String × String))
    (str : String) (hrow : row ∈ r0 :: rest)
    (hname : resolveField (findColumnName (r0.map (fun p => p.1))
      teacherCandidates) row ≠ "") :
    (TeacherRec.mk
      (resolveField (findColumnName (r0.map (fun p => p.1)) teacherCandidates) row)
      (resolveField (findColumnName (r0.map (fun p => p.1)) deptCandidates) row)
      ([resolveField (findColumnName (r0.map (fun p => p.1)) deptCandidates) row,
        resolveField (findColumnName (r0.map (fun p => p.1)) teacherCandidates) row] ++
        ((r0.map (fun p => p.1)).filter
          (fun h => containsStr "period" (jsToLower h))).flatMap
            (cellPair (parseLabelsList str) row)) ∈
      (parseExcelSchedule (r0 :: rest) str).teachers) ∧
    (∀ labels row2 pc, cellPair labels row2 pc =
      specCellPair labels (jsTrim (rowLookup row2 pc))) ∧
    (∀ labels row2 pc, (cellPair labels row2 pc).length = 2) := by
  refine ⟨?_, fun labels row2 pc => cellPair_eq_specCellPair labels row2 pc,
    fun labels row2 pc => cellPair_length labels row2 pc⟩
  rw [parseExcelSchedule_cons]
  refine List.mem_filterMap.mpr ⟨row, hrow, ?_⟩
  unfold rowToTeacher
  rw [if_neg hname]

/-- Witness for claim C2, on the spec's end-to-end example row. -/
theorem normalizer_cellPair_spec_witness :
    (∃ t ∈ (parseExcelSchedule
        [[("Teacher", "Lee, Anna"), ("Department", "Math"),
          ("Period 1",
            "Algebra I\n      FY  Room:204  Days:A\nGeometry\n      FY  Room:204  Days:B")]]
        "prep, lunch").teachers,
      t = ⟨"Lee, Anna", "Math",
        ["Math", "Lee, Anna", "Algebra I (Room: 204)", "Geometry (Room: 204)"]⟩) ∧
    cellPair (parseLabelsList "prep, lunch") [("Period 1", "prep")] "Period 1" =
      specCellPair (parseLabelsList "prep, lunch")
        (jsTrim (rowLookup [("Period 1", "prep")] "Period 1")) := by
  have h := normalizer_cellPair_spec
    [("Teacher", "Lee, Anna"), ("Department", "Math"),
      ("Period 1",
        "Algebra I\n      FY  Room:204  Days:A\nGeometry\n      FY  Room:204  Days:B")]
    [] [("Teacher", "Lee, Anna"), ("Department", "Math"),
      ("Period 1",
        "Algebra I\n      FY  Room:204  Days:A\nGeometry\n      FY  Room:204  Days:B")]
    "prep, lunch" (by decide) (by decide)
  exact ⟨⟨_, h.1, by decide⟩, h.2.1 _ _ _⟩

/-- Claim C10: the Normalizer's output is rectangular: the headers are the
two fixed columns followed by an A-day and a B-day column per period in
left-to-right order, so the header count is `2 + 2 × periods`, and every
teacher row has exactly that many cells, its period cells produced per
period column in the same order as the headers. -/
theorem normalizer_rectangular (data : List (List (String × String)))
    (str : String) :
    ((parseExcelSchedule data str).headers =
      ["Department", "Teacher"] ++
        (parseExcelSchedule data str).periodCols.flatMap
          (fun pc => [pc ++ " A Day", pc ++ " B Day"])) ∧
    ((parseExcelSchedule data str).headers.length =
      2 + 2 * (parseExcelSchedule data str).periodCols.length) ∧
    (∀ t ∈ (parseExcelSchedule data str).teachers,
      t.data.length = (parseExcelSchedule data str).headers.length ∧
      ∃ row ∈ data, t.data = [t.dept, t.teacher] ++
        (parseExcelSchedule data str).periodCols.flatMap
          (cellPair (parseLabelsList str) row)) := by
  cases data with
  | nil =>
    refine ⟨rfl, rfl, ?_⟩
    intro t ht
    simp [parseExcelSchedule] at ht
  | cons r0 rest =>
    rw [parseExcelSchedule_cons]
    refine ⟨rfl, ?_, ?_⟩
    · rw [List.length_append,
        length_flatMap_two (fun pc => [pc ++ " A Day", pc ++ " B Day"])
          (fun pc => rfl)]
      rfl
    · intro t ht
      obtain ⟨row, hrow, hsome⟩ := List.mem_filterMap.mp ht
      unfold rowToTeacher at hsome
      by_cases hname : resolveField
          (findColumnName (r0.map (fun p => p.1)) teacherCandidates) row = ""
      · rw [if_pos hname] at hsome
        cases hsome
      · rw [if_neg hname] at hsome
        injection hsome with h2
        subst h2
        refine ⟨?_, row, hrow, rfl⟩
        rw [List.length_append, List.length_append,
          length_flatMap_two (cellPair (parseLabelsList str) row)
            (fun pc => cellPair_length _ _ _),
          length_flatMap_two (fun pc => [pc ++ " A Day", pc ++ " B Day"])
            (fun pc => rfl)]
        rfl

/-- Witness for claim C10, on a concrete one-row table. -/
theorem normalizer_rectangular_witness :
    (parseExcelSchedule
        [[("Teacher", "Lee, Anna"), ("Department", "Math"),
          ("Period 1", "Algebra")]] "prep").headers =
      ["Department", "Teacher", "Period 1 A Day", "Period 1 B Day"] ∧
    (TeacherRec.mk "Lee, Anna" "Math"
        ["Math", "Lee, Anna", "Algebra", "Algebra"]).data.length =
      (parseExcelSchedule
        [[("Teacher", "Lee, Anna"), ("Department", "Math"),
          ("Period 1", "Algebra")]] "prep").headers.length := by
  have h := normalizer_rectangular
    [[("Teacher", "Lee, Anna"), ("Department", "Math"), ("Period 1", "Algebra")]]
    "prep"
  refine ⟨by decide, ?_⟩
  exact (h.2.2 ⟨"Lee, Anna", "Math", ["Math", "Lee, Anna", "Algebra", "Algebra"]⟩
    (by decide)).1

